import Mathlib

/-!
# The expression evaluator of the simple debugger (`nemu/src/monitor/sdb/expr.c`)

A shallow embedding of `expr.c`: the rule table, `make_token`, `check_parentheses`,
`isOperator`, `get_main_op`, `eval` and `expr`, followed by theorems about them.

Conventions of the embedding.

* The file-level variables `tokens` and `nr_token` are the fields of the record `Sdb`,
  passed explicitly.  A token's `str` is the whole 32-byte array, NUL bytes included.
  The text of a token is `cstr`, the bytes before the first NUL of the array: what the
  C library reads when the array holds a NUL (`terminated`).  The theorems that depend
  on the text of an arbitrary token take that as a hypothesis.
* A C function that may not return normally yields an `Outcome`: it returns, or it
  stops the process through `assert(0)`, or it executes an operation whose behaviour
  the C language leaves undefined.
* Loops whose number of iterations is not bounded by their arguments, and the
  recursion of `eval`, take a fuel argument; `none` means the fuel ran out.
* `word_t` is the 32-bit unsigned word of the riscv32 target (memory is read four
  bytes at a time, `paddr_read(.., 4)`); values are naturals below `2 ^ 32`.
* The C library is the GNU C library on a 64-bit host, which the rule table
  presupposes (`\b` is a GNU operator): `regcomp`/`regexec`, `sscanf`, `strtol` and
  `strncpy` are modelled as that library behaves.
-/

namespace Nemu

/-! ## Outcomes -/

/-- The three places where `eval` stops the process with `assert(0)`, and the stop
inside the memory collaborator. -/
inductive Site where
  /-- Lines 170-173: `p > q`, "input wrong at range". -/
  | range
  /-- Lines 190-193: a single token that is no operand, "false when p = q meets". -/
  | single
  /-- Lines 225-227: the `default` branch of the operator switch. -/
  | operator
  /-- The collaborator `paddr_read` did not return (address outside memory). -/
  | paddr
  deriving DecidableEq, Repr

/-- Operations of the C code whose behaviour is undefined. -/
inductive UB where
  /-- Line 216: `val1 / val2` executed with `val2 == 0`. -/
  | divZero
  /-- An element of `tokens` outside the array is read or written. -/
  | bounds
  /-- Line 112: `strncpy` writes more than the 32 bytes of `str`. -/
  | strOverflow
  /-- Line 96: `regexec` on a `regex_t` that `regcomp` did not fill in. -/
  | badRegex
  deriving DecidableEq, Repr

/-- What a call of a C function of this file comes to. -/
inductive Outcome (α : Type) where
  /-- The function returned the value. -/
  | ret (a : α)
  /-- The process was stopped by `assert(0)` at the given site. -/
  | abort (s : Site)
  /-- Undefined behaviour was executed. -/
  | undef (u : UB)
  deriving DecidableEq, Repr

/-! ## Token kinds (lines 24-30) and machine words -/

def TK_NOTYPE : Int := 256
def TK_EQ : Int := 257
def TK_NEQ : Int := 258
def TK_AND : Int := 259
def TK_OR : Int := 260
def TK_NUM : Int := 261
def TK_REG : Int := 262
def TK_HEX : Int := 263
def TK_DREF : Int := 264
def TK_NEG : Int := 265

/-- The `int` value of a C character constant such as `'+'`. -/
def ord (c : Char) : Int := Int.ofNat c.toNat

/-- Width of `word_t` in bits. -/
def wordBits : Nat := 32

/-- Number of values of `word_t`. -/
def WORD : Nat := 2 ^ wordBits

/-- The NUL byte. -/
def NUL : Char := Char.ofNat 0

/-! ## Regular expressions as the C library compiles them -/

/-- The fragment of POSIX extended regular expressions (with the GNU operator `\b`)
that the rule table uses. -/
inductive Regex where
  /-- The empty expression: matches the empty string. -/
  | empty
  /-- One given character. -/
  | chr (c : Char)
  /-- A bracket expression: one character lying in one of the ranges `lo-hi`. -/
  | cls (ranges : List (Char × Char))
  /-- A bracket expression followed by `+`: one or more such characters. -/
  | plus (ranges : List (Char × Char))
  /-- Concatenation. -/
  | seq (a b : Regex)
  /-- Alternation `a|b`. -/
  | alt (a b : Regex)
  /-- The anchor `^`: start of the subject string. -/
  | bol
  /-- The anchor `$`: end of the subject string. -/
  | eol
  /-- The GNU operator `\b`: a word boundary. -/
  | wordb
  deriving Repr

/-- Membership of a character in a bracket expression. -/
def inRanges (ranges : List (Char × Char)) (c : Char) : Bool :=
  ranges.any (fun r => decide (r.1.toNat ≤ c.toNat) && decide (c.toNat ≤ r.2.toNat))

/-- Word characters for `\b`: letters, digits and the underscore. -/
def isWordChar (c : Char) : Bool :=
  inRanges [('a', 'z'), ('A', 'Z'), ('0', '9'), ('_', '_')] c

/-- Whether the position between `prev` and the head of `s` is a word boundary; the
start and the end of the subject count as non-word. -/
def atBoundary (prev : Option Char) (s : List Char) : Bool :=
  let before := match prev with
    | some c => isWordChar c
    | none => false
  let after := match s with
    | c :: _ => isWordChar c
    | [] => false
  before != after

/-- All ways to take one or more leading characters of the class off `s`: the pairs
(last character taken, remaining text). -/
def plusRuns (ranges : List (Char × Char)) : List Char → List (Option Char × List Char)
  | [] => []
  | c :: t => if inRanges ranges c then (some c, t) :: plusRuns ranges t else []

/-- All matches of `r` anchored at the current position: `prev` is the character
just before the position (`none` at the start of the subject), `s` the text from the
position on; each result is the same pair after the match. -/
def Regex.run : Regex → Option Char → List Char → List (Option Char × List Char)
  | .empty, prev, s => [(prev, s)]
  | .chr c, _, s =>
    match s with
    | x :: t => if x = c then [(some x, t)] else []
    | [] => []
  | .cls ranges, _, s =>
    match s with
    | x :: t => if inRanges ranges x then [(some x, t)] else []
    | [] => []
  | .plus ranges, _, s => plusRuns ranges s
  | .seq a b, prev, s => (a.run prev s).flatMap (fun m => b.run m.1 m.2)
  | .alt a b, prev, s => a.run prev s ++ b.run prev s
  | .bol, prev, s => if prev.isNone then [(prev, s)] else []
  | .eol, prev, s => if s.isEmpty then [(prev, s)] else []
  | .wordb, prev, s => if atBoundary prev s then [(prev, s)] else []

/-- The call `regexec(&re, s, 1, &pmatch, 0)` as `make_token` uses it: `some len` when
the call returns 0 with `pmatch.rm_so == 0`, and then `len` is `pmatch.rm_eo`;
`none` otherwise.  `regexec` reports the leftmost match and, among those, the longest,
so a match with `rm_so == 0` is reported exactly when some match starts at offset 0,
and `rm_eo` is the greatest end of such a match. -/
def regexec (re : Regex) (s : List Char) : Option Nat :=
  match (re.run none s).map (fun m => s.length - m.2.length) with
  | [] => none
  | l :: ls => some (ls.foldl max l)

/-! ## The rule table (lines 32-55) -/

/-- One entry of `rules` together with its slot of `re`: `regex` is the compiled
pattern, `none` when `regcomp` rejects the pattern. -/
structure rule where
  regex : Option Regex
  token_type : Int
  deriving Repr

/-- The text of a pattern made of literal characters only. -/
def lit (cs : List Char) : Regex :=
  cs.foldr (fun c r => Regex.seq (Regex.chr c) r) Regex.empty

def digit : List (Char × Char) := [('0', '9')]

def hexdigit : List (Char × Char) := [('0', '9'), ('a', 'f'), ('A', 'F')]

/-- The body of the register pattern, `0|ra|sp|gp|tp|t[0-6]|s[0-11]|a[0-7]`.  The
bracket expression `[0-11]` is the range `0-1` followed by the character `1`. -/
def regNames : Regex :=
  .alt (lit ['0']) (.alt (lit ['r', 'a']) (.alt (lit ['s', 'p']) (.alt (lit ['g', 'p'])
    (.alt (lit ['t', 'p']) (.alt (.seq (.chr 't') (.cls [('0', '6')]))
      (.alt (.seq (.chr 's') (.cls [('0', '1'), ('1', '1')]))
        (.seq (.chr 'a') (.cls [('0', '7')]))))))))

/-- The register pattern `^\$(?:0|ra|...|a[0-7])$` read with `(?:` opening a plain
group, as its author meant it.  This is NOT what `re[12]` holds (see `rules`); it is
used to show that the pattern would miss references even under that reading. -/
def regPattern : Regex :=
  .seq .bol (.seq (.chr '$') (.seq regNames .eol))

/-- The array `rules` with the array `re` after `init_regex`, in the order of the
source.

* `"||"` is, in an extended regular expression, an alternation of three empty
  branches (the bar is not escaped): it compiles and matches the empty string.
* `"^\\$(?:0|...)$"` is rejected by `regcomp`: after `(` the operator `?` has nothing
  to repeat (`REG_BADRPT`), so `re[12]` is never filled in.
-/
def rules : List rule :=
  [ ⟨some (.plus [(' ', ' ')]), TK_NOTYPE⟩,   -- " +"
    ⟨some (lit ['+']), ord '+'⟩,              -- "\\+"
    ⟨some (lit ['-']), ord '-'⟩,              -- "\\-"
    ⟨some (lit ['=', '=']), TK_EQ⟩,           -- "=="
    ⟨some (lit ['!', '=']), TK_NEQ⟩,          -- "!="
    ⟨some (lit ['&', '&']), TK_AND⟩,          -- "&&"
    ⟨some (.alt .empty (.alt .empty .empty)), TK_OR⟩,   -- "||"
    ⟨some (lit ['*']), ord '*'⟩,              -- "\\*"
    ⟨some (lit ['/']), ord '/'⟩,              -- "/"
    ⟨some (.seq .wordb (.seq (.plus digit) .wordb)), TK_NUM⟩,   -- "\\b[0-9]+\\b"
    ⟨some (lit ['(']), ord '('⟩,              -- "\\("
    ⟨some (lit [')']), ord ')'⟩,              -- "\\)"
    ⟨none, TK_REG⟩,                           -- "^\\$(?:0|ra|sp|gp|tp|t[0-6]|s[0-11]|a[0-7])$"
    ⟨some (.seq .wordb (.seq (.chr '0') (.seq (.cls [('x', 'x'), ('X', 'X')])
        (.seq (.plus hexdigit) .wordb)))), TK_HEX⟩ ]   -- "\\b0[xX][0-9a-fA-F]+\\b"

/-- The function `init_regex` (lines 64-76): `true` when every pattern compiles; on
`false` the source calls `panic`. -/
def init_regex (rs : List rule) : Bool :=
  rs.all (fun r => r.regex.isSome)

/-! ## Tokens (lines 78-84) -/

/-- Number of bytes of `Token.str`. -/
def STR_SIZE : Nat := 32

/-- Number of elements of `tokens`. -/
def NR_TOKENS : Nat := 32

/-- The type `Token`: `str` is the whole array of `STR_SIZE` bytes. -/
structure Token where
  type : Int
  str : List Char
  deriving DecidableEq, Repr

/-- The file-level variables `tokens` and `nr_token`. -/
structure Sdb where
  tokens : List Token
  nr_token : Nat
  deriving DecidableEq, Repr

/-- The zero-initialised token. -/
def Token.zero : Token := ⟨0, List.replicate STR_SIZE NUL⟩

/-- The variables as they are when the program starts: all bytes zero. -/
def Sdb.pristine : Sdb := ⟨List.replicate NR_TOKENS Token.zero, 0⟩

/-- The C string held in a byte array: the bytes before the first NUL.  An array
without a NUL is read to its end (the C code would read on into the next token). -/
def cstr (buf : List Char) : List Char :=
  buf.takeWhile (fun c => c != NUL)

/-- A 32-byte array holding the given text followed by NUL bytes. -/
def strBuf (text : List Char) : List Char :=
  text ++ List.replicate (STR_SIZE - text.length) NUL

/-- The element `tokens[i]` for an index inside the array (the zero token stands in
elsewhere; `record` and `eval` test the bounds before they use an element). -/
def tokAt (toks : List Token) (i : Int) : Token :=
  toks.getD i.toNat Token.zero

/-- The assignment `tokens[i].type = ty`. -/
def setType (toks : List Token) (i : Nat) (ty : Int) : List Token :=
  toks.modify (fun t => { t with type := ty }) i

/-- The library function `strncpy(dst, src, n)` on a destination array `dst` with
`n` not above its size: exactly `n` bytes are written, the characters of `src` and,
if `src` is shorter than `n`, NUL bytes after them; no NUL is written otherwise. -/
def strncpy (dst src : List Char) (n : Nat) : List Char :=
  (src.take n ++ List.replicate (n - src.length) NUL) ++ dst.drop n

/-! ## `make_token` (lines 86-127) -/

/-- The `for` loop of lines 95-118 up to its `break`: the first rule that matches at
offset 0 of `s`, as (token type, matched length); `none` when the loop ends with
`i == NR_REGEX`. -/
def first_match : List rule → List Char → Outcome (Option (Int × Nat))
  | [], _ => .ret none
  | r :: rs, s =>
    match r.regex with
    | none => .undef .badRegex
    | some re =>
      match regexec re s with
      | some len => .ret (some (r.token_type, len))
      | none => first_match rs s

/-- The `default` branch of the switch, line 112:
`tokens[nr_token++].type = ty, strncpy(tokens[nr_token++].str, substr_start, substr_len)`.
The comma operator sequences the two halves, and each half increments `nr_token`. -/
def record (st : Sdb) (ty : Int) (substr_start : List Char) (substr_len : Nat) :
    Outcome Sdb :=
  if st.tokens.length ≤ st.nr_token then .undef .bounds
  else
    let toks1 := setType st.tokens st.nr_token ty
    let n1 := st.nr_token + 1
    if toks1.length ≤ n1 then .undef .bounds
    else if STR_SIZE < substr_len then .undef .strOverflow
    else
      let toks2 := toks1.modify
        (fun t => { t with str := strncpy t.str substr_start substr_len }) n1
      .ret ⟨toks2, n1 + 1⟩

/-- The `while` loop of lines 93-124, started at `position` in state `st`. -/
def make_token_loop (rs : List rule) (e : List Char) :
    Nat → Sdb → Nat → Option (Outcome (Bool × Sdb))
  | 0, _, _ => none
  | fuel + 1, st, position =>
    match e.drop position with
    | [] => some (.ret (true, st))
    | c :: rest =>
      match first_match rs (c :: rest) with
      | .ret none => some (.ret (false, st))
      | .ret (some (ty, substr_len)) =>
        if ty = TK_NOTYPE then make_token_loop rs e fuel st (position + substr_len)
        else
          match record st ty (c :: rest) substr_len with
          | .ret st1 => make_token_loop rs e fuel st1 (position + substr_len)
          | .abort s => some (.abort s)
          | .undef u => some (.undef u)
      | .abort s => some (.abort s)
      | .undef u => some (.undef u)

/-- The function `make_token`: the text `e` (without its terminating NUL) is scanned
with the rules `rs`; the result is the returned flag and the variables afterwards. -/
def make_token (rs : List rule) (fuel : Nat) (st : Sdb) (e : List Char) :
    Option (Outcome (Bool × Sdb)) :=
  make_token_loop rs e fuel { st with nr_token := 0 } 0

/-! ## Library conversions used by `eval` -/

/-- The C function `isspace` in the C locale. -/
def isspace (c : Char) : Bool :=
  c.toNat = 32 || (decide (9 ≤ c.toNat) && decide (c.toNat ≤ 13))

/-- Value of a digit character in a base up to 16. -/
def digitVal (c : Char) : Nat :=
  if inRanges [('0', '9')] c then c.toNat - 48
  else if inRanges [('a', 'f')] c then c.toNat - 87
  else c.toNat - 55

/-- Value of a run of digits in the given base. -/
def digitsVal (base : Nat) (ds : List Char) : Nat :=
  ds.foldl (fun acc c => acc * base + digitVal c) 0

/-- The library's conversion of a magnitude with a sign to `long` (64 bits, saturating
at `LONG_MAX` and `LONG_MIN`), then stored in a 32-bit object: the low 32 bits. -/
def toWord (negative : Bool) (n : Nat) : Nat :=
  if negative then (2 ^ 64 - min n (2 ^ 63)) % WORD else min n (2 ^ 63 - 1) % WORD

/-- Splits an optional sign off the text. -/
def takeSign : List Char → Bool × List Char
  | '-' :: t => (true, t)
  | '+' :: t => (false, t)
  | s => (false, s)

/-- The call `sscanf(str, "%d", &val)` of line 177: the value stored in `val`, or
`none` when nothing is converted and `val` keeps its indeterminate initial value. -/
def sscanf_d (str : List Char) : Option Nat :=
  let s := takeSign (str.dropWhile isspace)
  let ds := s.2.takeWhile (inRanges digit)
  if ds.isEmpty then none else some (toWord s.1 (digitsVal 10 ds))

/-- Drops the prefix `0x` or `0X` when a hexadecimal digit follows it. -/
def dropHexMark : List Char → List Char
  | '0' :: x :: h :: t =>
    if (x = 'x' || x = 'X') && inRanges hexdigit h then h :: t else '0' :: x :: h :: t
  | s => s

/-- The call `strtol(str, NULL, 16)` of line 188, converted to `word_t`. -/
def strtol16 (str : List Char) : Nat :=
  let s := takeSign (str.dropWhile isspace)
  let ds := (dropHexMark s.2).takeWhile (inRanges hexdigit)
  toWord s.1 (digitsVal 16 ds)

/-- What `eval` takes from outside this file.  `isa_reg_str2val name` gives the
returned value and the flag `f` after the call (the caller sets it to `true` before);
`paddr_read addr len` gives the word read, `none` when the collaborator stops
the process instead of returning; `val_uninit` is the content of the automatic
variable `val` of line 176 before anything is stored in it (its address is taken, so
reading it gives an unspecified word, no more; every statement holds for all of them). -/
structure Machine where
  isa_reg_str2val : List Char → Nat × Bool
  paddr_read : Nat → Nat → Option Nat
  val_uninit : Nat

/-! ## `check_parentheses`, `isOperator`, `get_main_op` (lines 129-167) -/

/-- The `for` loop of lines 132-136 run on the types of `tokens[p+1 .. q-1]` with the
counter `tot`; `none` stands for the early `return 0` of line 135. -/
def paren_loop : List Int → Int → Option Int
  | [], tot => some tot
  | ty :: tys, tot =>
    let tot1 := if ty = ord '(' then tot + 1 else if ty = ord ')' then tot - 1 else tot
    if tot1 < 0 then none else paren_loop tys tot1

/-- The types of `tokens[p .. q]`, in order. -/
def typesIn (toks : List Token) (p q : Int) : List Int :=
  (List.range (q + 1 - p).toNat).map (fun k => (tokAt toks (p + k)).type)

/-- The function `check_parentheses`. -/
def check_parentheses (toks : List Token) (p q : Int) : Bool :=
  if (tokAt toks p).type ≠ ord '(' ∨ (tokAt toks q).type ≠ ord ')' then false
  else
    match paren_loop (typesIn toks (p + 1) (q - 1)) 0 with
    | none => false
    | some tot => tot = 0

/-- The function `isOperator`. -/
def isOperator (toks : List Token) (p : Int) : Bool :=
  let ty := (tokAt toks p).type
  if ty = TK_NUM ∨ ty = TK_REG ∨ ty = TK_HEX ∨ ty = ord '(' ∨ ty = ord ')' then false
  else true

/-- The chain of lines 150 and 155-160: the value of `tmp` for a token type; it keeps
its initial value 0 for a type that no branch names. -/
def rank (ty : Int) : Int :=
  if ty = TK_OR then 0
  else if ty = TK_AND then 1
  else if ty = TK_EQ ∨ ty = TK_NEQ then 2
  else if ty = ord '+' ∨ ty = ord '-' then 3
  else if ty = ord '*' ∨ ty = ord '/' then 4
  else if ty = TK_NEG ∨ ty = TK_DREF then 5
  else 0

/-- The `for` loop of lines 149-165: `n` more iterations from index `i` with the
variables `cur`, `mi` and `mi_pos`; the result is the final `mi_pos`. -/
def main_op_loop (toks : List Token) : Nat → Int → Int → Int → Int → Int
  | 0, _, _, _, mi_pos => mi_pos
  | n + 1, i, cur, mi, mi_pos =>
    let ty := (tokAt toks i).type
    let cur1 := if ty = ord '(' then cur + 1 else if ty = ord ')' then cur - 1 else cur
    if !isOperator toks i then main_op_loop toks n (i + 1) cur1 mi mi_pos
    else if cur1 ≠ 0 then main_op_loop toks n (i + 1) cur1 mi mi_pos
    else if rank ty ≤ mi then main_op_loop toks n (i + 1) cur1 (rank ty) i
    else main_op_loop toks n (i + 1) cur1 mi mi_pos

/-- The function `get_main_op`. -/
def get_main_op (toks : List Token) (p q : Int) : Int :=
  main_op_loop toks (q + 1 - p).toNat p 0 100 0

/-! ## `eval` (lines 169-230) -/

/-- The case `p == q` of `eval`, lines 174-194.  The result of `sscanf` is not
looked at: when nothing is converted, `val` is returned as it was. -/
def eval_single (m : Machine) (t : Token) : Outcome Nat :=
  if t.type = TK_NUM then
    match sscanf_d (cstr t.str) with
    | some val => .ret val
    | none => .ret (m.val_uninit % WORD)
  else if t.type = TK_REG then
    let r := m.isa_reg_str2val (cstr t.str)
    if r.2 then .ret (r.1 % WORD) else .ret 0
  else if t.type = TK_HEX then .ret (strtol16 (cstr t.str))
  else .abort .single

/-- The switch of lines 208-228 on the values of the two operands. -/
def binop (ty : Int) (val1 val2 : Nat) : Outcome Nat :=
  if ty = ord '+' then .ret ((val1 + val2) % WORD)
  else if ty = ord '-' then .ret ((val1 + (WORD - val2)) % WORD)
  else if ty = ord '*' then .ret ((val1 * val2) % WORD)
  else if ty = ord '/' then (if val2 = 0 then .undef .divZero else .ret (val1 / val2))
  else if ty = TK_EQ then .ret (if val1 = val2 then 1 else 0)
  else if ty = TK_NEQ then .ret (if val1 ≠ val2 then 1 else 0)
  else if ty = TK_AND then .ret (if val1 ≠ 0 ∧ val2 ≠ 0 then 1 else 0)
  else if ty = TK_OR then .ret (if val1 ≠ 0 ∨ val2 ≠ 0 then 1 else 0)
  else .abort .operator

/-- The product `-1 * v` in `word_t` arithmetic (line 201). -/
def negate (v : Nat) : Nat := ((WORD - 1) * v) % WORD

/-- The function `eval` on the array `toks`.  Reads of `tokens` happen only after
`p <= q` is known, at indices between `p` and `q` (and at the `mi_pos` of
`get_main_op`, which is one of those or 0), so the one bounds test covers them. -/
def eval (m : Machine) (toks : List Token) : Nat → Int → Int → Option (Outcome Nat)
  | 0, _, _ => none
  | fuel + 1, p, q =>
    if p > q then some (.abort .range)
    else if p < 0 ∨ (toks.length : Int) ≤ q then some (.undef .bounds)
    else if p = q then some (eval_single m (tokAt toks p))
    else if check_parentheses toks p q then eval m toks fuel (p + 1) (q - 1)
    else
      let op := get_main_op toks p q
      let ty := (tokAt toks op).type
      if ty = TK_NEG then
        match eval m toks fuel (op + 1) q with
        | some (.ret v) => some (.ret (negate v))
        | other => other
      else if ty = TK_DREF then
        match eval m toks fuel (op + 1) q with
        | some (.ret addr) =>
          (match m.paddr_read addr 4 with
           | some v => some (.ret (v % WORD))
           | none => some (.abort .paddr))
        | other => other
      else
        match eval m toks fuel p (op - 1) with
        | some (.ret val1) =>
          (match eval m toks fuel (op + 1) q with
           | some (.ret val2) => some (binop ty val1 val2)
           | other => other)
        | other => other

/-! ## `expr` (lines 232-244) -/

/-- One iteration of the loop of lines 237-242, for index `i`. -/
def reclassify (toks : List Token) (i : Nat) : List Token :=
  let prev := (tokAt toks (Int.ofNat i - 1)).type
  let toks1 :=
    if (tokAt toks i).type = ord '*' ∧
        (i = 0 ∨ (prev ≠ TK_NUM ∧ prev ≠ ord ')' ∧ prev ≠ TK_REG ∧ prev ≠ TK_HEX)) then
      setType toks i TK_DREF
    else toks
  if (tokAt toks1 i).type = ord '-' ∧
      (i = 0 ∨ (prev = ord '(' ∨ prev = TK_DREF ∨ prev = ord '+' ∨ prev = ord '-' ∨
        prev = ord '*' ∨ prev = ord '/')) then
    setType toks1 i TK_NEG
  else toks1

/-- The loop of lines 237-242: `n` more iterations from index `i`. -/
def reclassify_loop : Nat → Nat → List Token → List Token
  | 0, _, toks => toks
  | n + 1, i, toks => reclassify_loop n (i + 1) (reclassify toks i)

/-- What `expr` leaves behind when it returns: the returned word, the caller's
`*success`, and the file-level variables. -/
structure ExprResult where
  value : Nat
  success : Bool
  st : Sdb
  deriving DecidableEq, Repr

/-- The function `expr`, called with the variables `st`, the text `e` and the value
`success` that the caller's flag holds on entry. -/
def expr (rs : List rule) (m : Machine) (fuel : Nat) (st : Sdb) (e : List Char)
    (success : Bool) : Option (Outcome ExprResult) :=
  match make_token rs fuel st e with
  | none => none
  | some (.abort s) => some (.abort s)
  | some (.undef u) => some (.undef u)
  | some (.ret (false, st1)) => some (.ret ⟨0, false, st1⟩)
  | some (.ret (true, st1)) =>
    let toks := reclassify_loop st1.nr_token 0 st1.tokens
    match eval m toks fuel 0 (Int.ofNat st1.nr_token - 1) with
    | none => none
    | some (.abort s) => some (.abort s)
    | some (.undef u) => some (.undef u)
    | some (.ret v) => some (.ret ⟨v, success, ⟨toks, st1.nr_token⟩⟩)

/-! ## Vocabulary of the statements -/

/-- A token of the given type whose `str` holds the given text. -/
def token (ty : Int) (text : String) : Token := ⟨ty, strBuf text.toList⟩

/-- Running parenthesis depth of a list of token types: the number of `(` minus the
number of `)`. -/
def depth (tys : List Int) : Int :=
  (tys.count (ord '(') : Int) - (tys.count (ord ')') : Int)

/-- A list of token types is balanced when the depth of no initial part is negative
and the depth of the whole is zero. -/
def balanced (tys : List Int) : Prop :=
  (∀ k, k ≤ tys.length → 0 ≤ depth (tys.take k)) ∧ depth tys = 0

/-- A machine for the concrete runs: no register is found, the word read at address
`a` is `a + 5`, and an uninitialised `val` holds 0. -/
def machine0 : Machine := ⟨fun _ => (0, false), fun a _ => some (a + 5), 0⟩

/-- The text of the token ends inside its array: `str` holds a NUL, so the library
calls of lines 177, 183 and 188 read the bytes before that NUL, which are `cstr`, and
none of the memory that follows the array. -/
def terminated (t : Token) : Prop := NUL ∈ t.str

/-- The well-formed token stream of the text `5/0`. -/
def stream_5_div_0 : List Token :=
  [token TK_NUM "5", token (ord '/') "/", token TK_NUM "0"]

/-- The token stream negate, number, number (the text `-1 2`). -/
def stream_neg_1_2 : List Token :=
  [token TK_NEG "-", token TK_NUM "1", token TK_NUM "2"]

/-- The token stream of the text `)(-1` after the reclassification pass. -/
def stream_close_open_neg_1 : List Token :=
  [token (ord ')') ")", token (ord '(') "(", token TK_NEG "-", token TK_NUM "1"]

/-- The token stream negate, dereference, number (the text `-*0`). -/
def stream_neg_deref_0 : List Token :=
  [token TK_NEG "-", token TK_DREF "*", token TK_NUM "0"]

/-- The token stream of the text `(1+2)`. -/
def stream_paren_1_plus_2 : List Token :=
  [token (ord '(') "(", token TK_NUM "1", token (ord '+') "+", token TK_NUM "2",
    token (ord ')') ")"]

/-- The variables after `make_token` has scanned the one-character text `+` from the
pristine state: the type is in slot 0, the text in slot 1, and `nr_token` is 2. -/
def after_plus : Sdb :=
  ⟨⟨ord '+', strBuf []⟩ :: ⟨0, strBuf ['+']⟩ :: List.replicate 30 Token.zero, 2⟩

/-- The variables after `make_token` has scanned the text `==` from the pristine
state. -/
def after_eq : Sdb :=
  ⟨⟨TK_EQ, strBuf []⟩ :: ⟨0, strBuf ['=', '=']⟩ :: List.replicate 30 Token.zero, 2⟩

/-- The variables after `make_token` has scanned `+` right after scanning `==`: the
second byte of the earlier text is still in slot 1. -/
def after_eq_plus : Sdb :=
  ⟨⟨ord '+', strBuf []⟩ :: ⟨0, strBuf ['+', '=']⟩ :: List.replicate 30 Token.zero, 2⟩

/-- The table as its author meant it, NOT the table the program runs with: rule 6 is
the two-character text `||` and rule 12 is `regPattern`; the other rules are those of
`rules`.  It serves to show which conclusions do not depend on how the C library
reads those two patterns. -/
def rules_as_meant : List rule :=
  rules.take 6 ++ [⟨some (lit ['|', '|']), TK_OR⟩] ++ (rules.drop 7).take 5 ++
    [⟨some regPattern, TK_REG⟩] ++ rules.drop 13

/-- The decimal digits. -/
def decDigits : List Char := ['0', '1', '2', '3', '4', '5', '6', '7', '8', '9']

/-- The hexadecimal digits, letters in lower and in upper case. -/
def hexDigits : List Char :=
  decDigits ++ ['a', 'b', 'c', 'd', 'e', 'f'] ++ ['A', 'B', 'C', 'D', 'E', 'F']

/-- The value of a hexadecimal digit: its place among the sixteen digits
`0123456789abcdef`, an upper-case letter counting as its lower-case form. -/
def hexDigitVal (c : Char) : Nat :=
  if c ∈ ['A', 'B', 'C', 'D', 'E', 'F'] then
    10 + ['A', 'B', 'C', 'D', 'E', 'F'].indexOf c
  else (decDigits ++ ['a', 'b', 'c', 'd', 'e', 'f']).indexOf c

/-- The base-16 value of a text of hexadecimal digits, most significant digit first. -/
def hexVal (ds : List Char) : Nat :=
  Nat.ofDigits 16 (ds.reverse.map hexDigitVal)

/-- The base-10 value of a text of decimal digits, most significant digit first. -/
def decVal (ds : List Char) : Nat :=
  Nat.ofDigits 10 (ds.reverse.map (fun c => decDigits.indexOf c))

/-- The hex-literal token with the text `0x10000000000000000` (2 to the 64). -/
def stream_hex_2_pow_64 : List Token :=
  [token TK_HEX "0x10000000000000000"]

/-- A text of 33 digits. -/
def text_33_digits : List Char := List.replicate 33 '1'

/-- A text of 32 digits. -/
def text_32_digits : List Char := List.replicate 32 '1'

/-- The variables after `record` has stored a lexeme of 32 digits from the pristine
state: the text fills `str` of slot 1 and no NUL follows it. -/
def after_32_digits : Sdb :=
  ⟨⟨TK_NUM, strBuf []⟩ :: ⟨0, text_32_digits⟩ :: List.replicate 30 Token.zero, 2⟩

/-- The tokens of the text `--3` as a tokenizer yields them, before the pass of
`expr`: minus, minus, number. -/
def stream_minus_minus_3 : List Token :=
  [token (ord '-') "-", token (ord '-') "-", token TK_NUM "3"]

/-- Variables in which slot 1 holds the type `TK_NUM` and the text `05`. -/
def stale_num : Sdb :=
  ⟨Token.zero :: token TK_NUM "05" :: List.replicate 30 Token.zero, 0⟩

/-- The variables after `expr` has run on the text `-` from `stale_num`. -/
def stale_num_after : Sdb :=
  ⟨token TK_NEG "" :: token TK_NUM "-5" :: List.replicate 30 Token.zero, 2⟩

/-- The type that one iteration of the pass of `expr` (lines 238-241) leaves in a token
of type `ty`; `first` tells whether the token is `tokens[0]`, `prev` is the type of
the token before it at that moment. -/
def nextType (first : Bool) (prev ty : Int) : Int :=
  if ty = ord '*' then
    (if first = true ∨ (prev ≠ TK_NUM ∧ prev ≠ ord ')' ∧ prev ≠ TK_REG ∧ prev ≠ TK_HEX)
      then TK_DREF else ord '*')
  else if ty = ord '-' then
    (if first = true ∨ (prev = ord '(' ∨ prev = TK_DREF ∨ prev = ord '+' ∨
        prev = ord '-' ∨ prev = ord '*' ∨ prev = ord '/')
      then TK_NEG else ord '-')
  else ty

/-- The types of the operator tokens of the grammar. -/
def operatorKinds : List Int :=
  [TK_OR, TK_AND, TK_EQ, TK_NEQ, ord '+', ord '-', ord '*', ord '/', TK_NEG, TK_DREF]

/-- The types of all tokens of the grammar. -/
def grammarKinds : List Int :=
  operatorKinds ++ [TK_NUM, TK_HEX, TK_REG, ord '(', ord ')']

/-- The precedence ranks of the operators: `||` 0, `&&` 1, `==` and `!=` 2, binary `+`
and `-` 3, `*` and `/` 4, negate and dereference 5. -/
def precedenceTable : List (Int × Int) :=
  [(TK_OR, 0), (TK_AND, 1), (TK_EQ, 2), (TK_NEQ, 2), (ord '+', 3), (ord '-', 3),
    (ord '*', 4), (ord '/', 4), (TK_NEG, 5), (TK_DREF, 5)]

/-- The precedence rank of an operator type. -/
def precedence (ty : Int) : Int :=
  (precedenceTable.lookup ty).getD 0

/-- Token `i` is an operator at parenthesis depth 0 of the range that starts at `p`:
the depth is counted from `p` up to and including `i`. -/
def depthZeroOp (toks : List Token) (p i : Int) : Prop :=
  (tokAt toks i).type ∈ operatorKinds ∧ depth (typesIn toks p i) = 0

/-- Token `i` passes the two tests of lines 153-154 in the scan that starts at `p`. -/
def candidate (toks : List Token) (p i : Int) : Prop :=
  isOperator toks i = true ∧ depth (typesIn toks p i) = 0

/-- The state of the loop of `get_main_op` before the iteration for index `i`: `cur` is
the depth of the tokens scanned, and `mi`, `mi_pos` are still 100 and unset if no
token scanned passed the tests, else the least rank among those that did and the
last index that has it. -/
def MainOpInv (toks : List Token) (p i cur mi mi_pos : Int) : Prop :=
  cur = depth (typesIn toks p (i - 1)) ∧
  ((mi = 100 ∧ ∀ j, p ≤ j → j < i → ¬ candidate toks p j) ∨
   (p ≤ mi_pos ∧ mi_pos < i ∧ candidate toks p mi_pos ∧
     rank (tokAt toks mi_pos).type = mi ∧
     ∀ j, p ≤ j → j < i → candidate toks p j →
       mi ≤ rank (tokAt toks j).type ∧ (rank (tokAt toks j).type = mi → j ≤ mi_pos)))

/-- The well-formed token stream of the text `1+2*3`. -/
def stream_1_plus_2_times_3 : List Token :=
  [token TK_NUM "1", token (ord '+') "+", token TK_NUM "2", token (ord '*') "*",
    token TK_NUM "3"]

/-- The types of the literal tokens: number, hex literal, register reference. -/
def literalKinds : List Int := [TK_NUM, TK_HEX, TK_REG]

/-- The types of the eight binary operators. -/
def binaryKinds : List Int :=
  [TK_OR, TK_AND, TK_EQ, TK_NEQ, ord '+', ord '-', ord '*', ord '/']

/-- The reference semantics of the binary operators on machine words: `+`, `-`, `*`
modulo 2 to the 32, `/` the integer quotient (no result for a zero divisor), `==` and
`!=` yield 1 or 0, `&&` and `||` take non-zero as true and yield 1 or 0. -/
def applyOp (ty : Int) (a b : Nat) : Option Nat :=
  if ty = ord '+' then some (((a : Int) + (b : Int)) % 2 ^ 32).toNat
  else if ty = ord '-' then some (((a : Int) - (b : Int)) % 2 ^ 32).toNat
  else if ty = ord '*' then some (((a : Int) * (b : Int)) % 2 ^ 32).toNat
  else if ty = ord '/' then (if b = 0 then none else some (a / b))
  else if ty = TK_EQ then some (if a = b then 1 else 0)
  else if ty = TK_NEQ then some (if a = b then 0 else 1)
  else if ty = TK_AND then some (if a = 0 ∨ b = 0 then 0 else 1)
  else if ty = TK_OR then some (if a = 0 ∧ b = 0 then 0 else 1)
  else none

/-- The tokens `W` stand in the array `toks` from index `i` on. -/
def SegTok (toks : List Token) (i : Int) (W : List Token) : Prop :=
  ∀ j : Nat, j < W.length → tokAt toks (i + (j : Int)) = W.getD j Token.zero

/-- The change of parenthesis depth at a token of type `ty`. -/
def parenStep (ty : Int) : Int :=
  if ty = ord '(' then 1 else if ty = ord ')' then -1 else 0

/-- An expression tree over decimal literals, given by their digits, and binary
operators, given by their token types. -/
inductive Tree where
  | lit (digits : List Char)
  | bin (op : Int) (l r : Tree)

/-- The value of a tree in the reference semantics; `none` when a division has a zero
right operand. -/
def Tree.value : Tree → Option Nat
  | .lit ds => some (decVal ds)
  | .bin op l r =>
    match l.value, r.value with
    | some a, some b => applyOp op a b
    | _, _ => none

/-- A tree is well formed when each literal is a non-empty text of at most 31 decimal
digits whose value fits a machine word and each operator is one of the eight binary
operators. -/
def Tree.wellFormed : Tree → Prop
  | .lit ds => ds ≠ [] ∧ (∀ c ∈ ds, c ∈ decDigits) ∧ ds.length ≤ 31 ∧ decVal ds < 2 ^ 32
  | .bin op l r => op ∈ binaryKinds ∧ l.wellFormed ∧ r.wellFormed

/-- The source texts of the binary operators. -/
def opTexts : List (Int × String) :=
  [(TK_OR, "||"), (TK_AND, "&&"), (TK_EQ, "=="), (TK_NEQ, "!="), (ord '+', "+"),
    (ord '-', "-"), (ord '*', "*"), (ord '/', "/")]

/-- The token of a binary operator. -/
def opToken (op : Int) : Token :=
  token op ((opTexts.lookup op).getD "")

/-- An operand as it is rendered: a literal as it is, any other tree between `(` and
`)`. -/
def wrap (t : Tree) (ts : List Token) : List Token :=
  match t with
  | .lit _ => ts
  | .bin _ _ _ => token (ord '(') "(" :: ts ++ [token (ord ')') ")"]

/-- The tokens of a tree: every operand that is not a literal is wrapped in
parentheses, the root is not. -/
def Tree.render : Tree → List Token
  | .lit ds => [⟨TK_NUM, strBuf ds⟩]
  | .bin op l r => wrap l l.render ++ [opToken op] ++ wrap r r.render

/-- Fuel that suffices for `eval` on the rendering of a tree. -/
def Tree.fuel : Tree → Nat
  | .lit _ => 1
  | .bin _ l r => 2 + max l.fuel r.fuel

/-- The tree of `(1+2)*(8/4)`. -/
def tree_example : Tree :=
  .bin (ord '*') (.bin (ord '+') (.lit ['1']) (.lit ['2']))
    (.bin (ord '/') (.lit ['8']) (.lit ['4']))

/-! ## Theorems -/

/-! ### The scanning loop -/

/-- A rule other than the skip rule that matches the empty string holds the cursor in
place: the loop records two slots per iteration until it writes outside `tokens`. -/
theorem loop_stuck {rs : List rule} {e : List Char} {pos : Nat} {c : Char}
    {rest : List Char} {ty : Int} (hd : e.drop pos = c :: rest)
    (hm : first_match rs (c :: rest) = .ret (some (ty, 0))) (hty : ty ≠ TK_NOTYPE) :
    ∀ (k : Nat) (st : Sdb) (fuel : Nat), st.tokens.length ≤ st.nr_token + 2 * k →
      k < fuel → make_token_loop rs e fuel st pos = some (.undef .bounds) := by
  intro k
  induction k with
  | zero =>
    intro st fuel hlen hfuel
    obtain ⟨f, rfl⟩ : ∃ f, fuel = f + 1 := ⟨fuel - 1, by omega⟩
    have h0 : st.tokens.length ≤ st.nr_token := by omega
    simp only [make_token_loop, hd, hm, hty, record, h0, if_true, if_false]
  | succ k ih =>
    intro st fuel hlen hfuel
    obtain ⟨f, rfl⟩ : ∃ f, fuel = f + 1 := ⟨fuel - 1, by omega⟩
    by_cases h0 : st.tokens.length ≤ st.nr_token
    · simp only [make_token_loop, hd, hm, hty, record, h0, if_true, if_false]
    · by_cases h1 : st.tokens.length ≤ st.nr_token + 1
      · simp only [make_token_loop, hd, hm, hty, record, h0, h1, setType,
          List.length_modify, if_true, if_false]
      · have h2 : ¬ STR_SIZE < 0 := by decide
        simp only [make_token_loop, hd, hm, hty, record, h0, h1, h2, setType,
          List.length_modify, if_true, if_false, Nat.add_zero]
        apply ih
        · simp only [List.length_modify]
          omega
        · omega

/-- The table `rules` does not pass `init_regex`: pattern 12 does not compile. -/
theorem init_regex_rules : init_regex rules = false := by decide

/-- With the table `rules`, at a character that is not a space and does not start
`+`, `-`, `==`, `!=` or `&&`, no rule before `||` matches and `||` matches the empty
string. -/
theorem first_match_other (c : Char) (rest : List Char)
    (h : c ∉ [' ', '+', '-', '=', '!', '&']) :
    first_match rules (c :: rest) = .ret (some (TK_OR, 0)) := by
  simp only [List.mem_cons, List.mem_nil_iff, or_false, not_or] at h
  obtain ⟨h1, h2, h3, h4, h5, h6⟩ := h
  have hs : ¬ (32 ≤ c.toNat ∧ c.toNat ≤ 32) := by
    intro hc
    apply h1
    have h32 : c.toNat = 32 := by omega
    rw [← Char.ofNat_toNat c, h32]
  simp [first_match, rules, regexec, Regex.run, lit, plusRuns, inRanges, h2, h3, h4, h5,
    h6, hs]

/-- With the table `rules`, a text that starts with such a character makes
`make_token` write outside an array of 32 tokens, whatever the array held before. -/
theorem make_token_stuck (c : Char) (rest : List Char) (st : Sdb) (fuel : Nat)
    (h : c ∉ [' ', '+', '-', '=', '!', '&']) (hlen : st.tokens.length = NR_TOKENS) :
    make_token rules (fuel + 17) st (c :: rest) = some (.undef .bounds) := by
  unfold make_token
  refine @loop_stuck rules (c :: rest) 0 c rest TK_OR rfl (first_match_other c rest h)
    (by decide) 16 _ _ ?_ (by omega)
  simp only [hlen, NR_TOKENS]
  omega

/-- With the table `rules` the `for` loop always ends with a match: `||` matches the
empty string wherever the rules before it do not match. -/
theorem first_match_rules_some (s : List Char) :
    ∃ ty len, first_match rules s = .ret (some (ty, len)) := by
  simp only [first_match, rules]
  repeat' split
  all_goals first
    | exact ⟨_, _, rfl⟩
    | (exfalso; simp [regexec, Regex.run] at *)

/-! ### The claims on `expr`, `make_token` and `eval` -/

set_option maxRecDepth 8000 in
/-- C1: from the pristine variables `expr` comes to no value on any text that starts
with a decimal digit, so on no text `a+b*c`, nor on `(1+2)*3`: at the first character
no rule before `||` matches, `||` matches the empty string, the cursor stays, and the
loop records `TK_OR` until it writes past the end of `tokens`.  With the table as its
author meant it the scan of `1+2*3` and `(1+2)*3` succeeds, but line 112 puts each
type and its text in two different slots, and `eval` stops at an `assert(0)`. -/
theorem expr_precedence_texts_overrun (m : Machine) (success : Bool) :
    (∀ (d : Fin 10) (rest : List Char) (fuel : Nat),
      expr rules m (fuel + 17) Sdb.pristine (Char.ofNat (48 + d.val) :: rest) success =
        some (.undef .bounds)) ∧
    expr rules m 40 Sdb.pristine "1+2*3".toList success = some (.undef .bounds) ∧
    expr rules m 40 Sdb.pristine "(1+2)*3".toList success = some (.undef .bounds) ∧
    expr rules_as_meant m 40 Sdb.pristine "1+2*3".toList success =
      some (.abort .single) ∧
    expr rules_as_meant m 40 Sdb.pristine "(1+2)*3".toList success =
      some (.abort .range) := by
  refine ⟨fun d rest fuel => ?_, ?_, ?_, ?_, ?_⟩
  · have hd : Char.ofNat (48 + d.val) ∉ [' ', '+', '-', '=', '!', '&'] := by
      fin_cases d <;> decide
    have h := make_token_stuck _ rest Sdb.pristine fuel hd (by decide)
    simp only [expr, h]
  · have h : make_token rules 40 Sdb.pristine "1+2*3".toList = some (.undef .bounds) :=
      make_token_stuck '1' _ Sdb.pristine 23 (by decide) (by decide)
    simp only [expr, h]
  · have h : make_token rules 40 Sdb.pristine "(1+2)*3".toList = some (.undef .bounds) :=
      make_token_stuck '(' _ Sdb.pristine 23 (by decide) (by decide)
    simp only [expr, h]
  · rfl
  · rfl

/-- C2: scanning the one-character text `+` from the pristine variables succeeds
with `nr_token = 2`; slot 0 has the type `+` and an empty text, slot 1 has the text
`+` and the type 0. -/
theorem make_token_plus_two_slots :
    make_token rules 10 Sdb.pristine "+".toList = some (.ret (true, after_plus)) ∧
    after_plus.nr_token = 2 ∧
    (tokAt after_plus.tokens 0).type = ord '+' ∧
    cstr (tokAt after_plus.tokens 0).str = [] ∧
    (tokAt after_plus.tokens 1).type = 0 ∧
    cstr (tokAt after_plus.tokens 1).str = ['+'] := by
  decide

/-- C3, the claim refuted: on the stream of `5/0` `eval` executes the division, whose
behaviour is undefined; it does not stop at one of its failure sites. -/
theorem eval_5_div_0_divides :
    eval machine0 stream_5_div_0 2 0 2 = some (.undef .divZero) ∧
    ¬ ∃ s, eval machine0 stream_5_div_0 2 0 2 = some (.abort s) := by
  have h : eval machine0 stream_5_div_0 2 0 2 = some (.undef .divZero) := by decide
  refine ⟨h, ?_⟩
  rintro ⟨s, hs⟩
  rw [h] at hs
  cases hs

/-- C3, amended: when the main operator of a range inside the array is `/`, the left
operand evaluates to a value and the right operand evaluates to 0, `eval` executes
the division by zero (undefined behaviour). -/
theorem eval_div_zero_undefined (m : Machine) (toks : List Token) (fuel : Nat)
    (p q : Int) (val1 : Nat)
    (hpq : p < q) (hp : 0 ≤ p) (hq : q < toks.length)
    (hpar : check_parentheses toks p q = false)
    (hop : (tokAt toks (get_main_op toks p q)).type = ord '/')
    (h1 : eval m toks fuel p (get_main_op toks p q - 1) = some (.ret val1))
    (h2 : eval m toks fuel (get_main_op toks p q + 1) q = some (.ret 0)) :
    eval m toks (fuel + 1) p q = some (.undef .divZero) := by
  have e1 : ¬ p > q := by omega
  have e2 : ¬ (p < 0 ∨ (toks.length : Int) ≤ q) := by omega
  have e3 : ¬ p = q := by omega
  have n1 : ¬ ord '/' = TK_NEG := by decide
  have n2 : ¬ ord '/' = TK_DREF := by decide
  simp only [eval, e1, e2, e3, hpar, hop, h1, h2, n1, n2, if_false]
  rfl

/-- C3, amended, at the stream of `5/0`. -/
theorem eval_div_zero_undefined_witness :
    eval machine0 stream_5_div_0 2 0 2 = some (.undef .divZero) :=
  eval_div_zero_undefined machine0 stream_5_div_0 1 0 2 5 (by decide) (by decide)
    (by decide) (by decide) (by decide) (by decide) (by decide)

/-- C4: on the stream negate, number, number the range `[1, 2]` has no operator, so
`get_main_op` returns its initial 0, a position outside the range; token 0 is negate
and `eval` calls itself on `[1, 2]` again: no amount of fuel lets `eval` finish on
the whole stream. -/
theorem eval_neg_1_2_never_returns :
    get_main_op stream_neg_1_2 1 2 = 0 ∧
    ∀ (m : Machine) (fuel : Nat), eval m stream_neg_1_2 fuel 0 2 = none := by
  refine ⟨by decide, fun m fuel => ?_⟩
  have inner : ∀ n, eval m stream_neg_1_2 n 1 2 = none := by
    intro n
    induction n with
    | zero => rfl
    | succ n ih =>
      have step : eval m stream_neg_1_2 (n + 1) 1 2 =
          (match eval m stream_neg_1_2 n 1 2 with
           | some (.ret v) => some (.ret (negate v))
           | other => other) := rfl
      rw [step, ih]
  cases fuel with
  | zero => rfl
  | succ n =>
    have step : eval m stream_neg_1_2 (n + 1) 0 2 =
        (match eval m stream_neg_1_2 n 1 2 with
         | some (.ret v) => some (.ret (negate v))
         | other => other) := rfl
    rw [step, inner n]

/-- C5: the stream of `)(-1` is not balanced (its depth is negative after the first
token), yet `eval` over the whole stream returns a value, the negation of 1: the
negate at depth 0 is the main operator and the tokens to its left are not looked
at. -/
theorem eval_unbalanced_returns_value (m : Machine) :
    ¬ balanced (stream_close_open_neg_1.map (fun t => t.type)) ∧
    get_main_op stream_close_open_neg_1 0 3 = 2 ∧
    eval m stream_close_open_neg_1 2 0 3 = some (.ret 4294967295) := by
  refine ⟨fun h => ?_, by decide, rfl⟩
  have h1 := h.1 1 (by decide)
  revert h1
  decide

/-! ### Lexical failure, registers, reuse of the token array -/

/-- With the table `rules` the loop of `make_token` never ends in `return false`. -/
theorem make_token_loop_rules_not_false (e : List Char) :
    ∀ (fuel : Nat) (st : Sdb) (pos : Nat) (st1 : Sdb),
      make_token_loop rules e fuel st pos ≠ some (.ret (false, st1)) := by
  intro fuel
  induction fuel with
  | zero =>
    intro st pos st1 h
    cases h
  | succ n ih =>
    intro st pos st1
    cases hd : e.drop pos with
    | nil =>
      simp only [make_token_loop, hd]
      intro h
      cases h
    | cons c rest =>
      obtain ⟨ty, len, hm⟩ := first_match_rules_some (c :: rest)
      by_cases hty : ty = TK_NOTYPE
      · simp only [make_token_loop, hd, hm, hty, if_true]
        exact ih _ _ _
      · cases hr : record st ty (c :: rest) len with
        | ret st2 =>
          simp only [make_token_loop, hd, hm, hty, hr, if_false]
          exact ih _ _ _
        | abort a =>
          simp only [make_token_loop, hd, hm, hty, hr, if_false]
          intro h
          cases h
        | undef u =>
          simp only [make_token_loop, hd, hm, hty, hr, if_false]
          intro h
          cases h

/-- C6: with the rule table of the program no text and no variables bring
`make_token` to its `return false`: at every cursor some rule matches (`||` matches
the empty string wherever no earlier rule matches), so the branch of lines 120-123 is
never taken and no lexical failure is reported.  On a text that starts with `@`, and
on `+@`, where no rule is meant to match at the `@`, the scan records `TK_OR` without
moving the cursor until it writes outside `tokens`; `expr` does not return. -/
theorem lex_failure_never_reported (m : Machine) (success : Bool) :
    (∀ s : List Char, first_match rules s ≠ .ret none) ∧
    (∀ (fuel : Nat) (st st1 : Sdb) (e : List Char),
      make_token rules fuel st e ≠ some (.ret (false, st1))) ∧
    (∀ (fuel : Nat) (rest : List Char),
      expr rules m (fuel + 17) Sdb.pristine ('@' :: rest) success =
        some (.undef .bounds)) ∧
    expr rules m 40 Sdb.pristine "+@".toList success = some (.undef .bounds) := by
  refine ⟨fun s h => ?_, fun fuel st st1 e => ?_, fun fuel rest => ?_, ?_⟩
  · obtain ⟨ty, len, hm⟩ := first_match_rules_some s
    rw [hm] at h
    cases h
  · exact make_token_loop_rules_not_false e fuel _ 0 st1
  · have h := make_token_stuck '@' rest Sdb.pristine fuel (by decide) (by decide)
    simp only [expr, h]
  · have h : make_token rules 40 Sdb.pristine "+@".toList = some (.undef .bounds) := by
      decide
    simp only [expr, h]

/-- C7: from the pristine variables, a text that starts with a dollar sign (a register
reference, followed by anything) never yields a register token: `make_token` writes
outside `tokens`, because the rule `||` matches the empty string at the dollar sign
before the register rule is tried; the slot of the register rule was never compiled.
Even with the table as its author meant it, `$a0+1` and `$s2` are lexical failures:
the final `$` of the register pattern asks for the end of the text, and `s[0-11]`
admits only the digits 0 and 1.  That pattern does match `$s1` alone. -/
theorem register_references_not_recognised :
    (∀ (fuel : Nat) (rest : List Char),
      make_token rules (fuel + 17) Sdb.pristine ('$' :: rest) = some (.undef .bounds)) ∧
    (rules.map (fun r => r.regex.isSome)).getD 12 true = false ∧
    make_token rules_as_meant 10 Sdb.pristine "$a0+1".toList =
      some (.ret (false, Sdb.pristine)) ∧
    make_token rules_as_meant 10 Sdb.pristine "$s2".toList =
      some (.ret (false, Sdb.pristine)) ∧
    regexec regPattern "$a0+1".toList = none ∧
    regexec regPattern "$s2".toList = none ∧
    regexec regPattern "$s11".toList = none ∧
    regexec regPattern "$s1".toList = some 3 := by
  refine ⟨fun fuel rest => ?_, by decide, by decide, by decide, by decide, by decide,
    by decide, by decide⟩
  exact make_token_stuck '$' rest Sdb.pristine fuel (by decide) (by decide)

/-- C8: scanning `+` right after scanning `==` leaves in slot 1 the text `+=`, while
scanning `+` from the pristine variables leaves the text `+`: `strncpy` writes one
byte and no terminating NUL, so the second byte of the earlier text stays. -/
theorem make_token_keeps_earlier_text :
    make_token rules 10 Sdb.pristine "==".toList = some (.ret (true, after_eq)) ∧
    make_token rules 10 after_eq "+".toList = some (.ret (true, after_eq_plus)) ∧
    make_token rules 10 Sdb.pristine "+".toList = some (.ret (true, after_plus)) ∧
    cstr (tokAt after_eq_plus.tokens 1).str = ['+', '='] ∧
    cstr (tokAt after_plus.tokens 1).str = ['+'] := by
  decide

/-! ### Unary operators and parentheses in `eval` -/

/-- C9: on the stream negate, dereference, number 0 `get_main_op` picks the
dereference (the later of the two operators of rank 5), so `eval` over the whole
stream is `eval` over `[1, 2]`, the word read at address 0, and the negate in front is
dropped: with a memory whose word at 0 is 5 the result is 5, not the negation of 5. -/
theorem eval_neg_deref_drops_negate :
    get_main_op stream_neg_deref_0 0 2 = 1 ∧
    (∀ m : Machine, eval m stream_neg_deref_0 3 0 2 = eval m stream_neg_deref_0 2 1 2) ∧
    eval machine0 stream_neg_deref_0 3 0 2 = some (.ret 5) ∧
    negate 5 = 4294967291 := by
  refine ⟨by decide, fun m => rfl, by decide, by decide⟩

/-- The depth of a list of types, one token at a time. -/
theorem depth_cons (ty : Int) (tys : List Int) :
    depth (ty :: tys) =
      (if ty = ord '(' then 1 else if ty = ord ')' then -1 else 0) + depth tys := by
  have hne : ord '(' ≠ ord ')' := by decide
  by_cases h1 : ty = ord '('
  · subst h1
    simp only [depth, List.count_cons, beq_self_eq_true, if_true, beq_iff_eq, hne, if_false]
    push_cast
    ring
  · by_cases h2 : ty = ord ')'
    · subst h2
      simp only [depth, List.count_cons, beq_self_eq_true, if_true, beq_iff_eq, h1, if_false]
      push_cast
      ring
    · simp only [depth, List.count_cons, beq_iff_eq, h1, h2, if_false]
      push_cast
      ring

/-- The loop of `check_parentheses` started with counter `tot` on types none of whose
initial parts takes the counter below zero ends with `tot` plus their depth. -/
theorem paren_loop_of_nonneg (tys : List Int) :
    ∀ tot : Int, (∀ k, k ≤ tys.length → 0 ≤ tot + depth (tys.take k)) →
      paren_loop tys tot = some (tot + depth tys) := by
  induction tys with
  | nil =>
    intro tot _
    simp [paren_loop, depth]
  | cons ty tys ih =>
    intro tot h
    have h1 := h 1 (by simp)
    simp only [List.take_succ_cons, List.take_zero, depth_cons] at h1
    have hd0 : depth [] = 0 := rfl
    rw [hd0] at h1
    have hrest : ∀ k, k ≤ tys.length →
        0 ≤ (tot + (if ty = ord '(' then 1 else if ty = ord ')' then -1 else 0))
          + depth (tys.take k) := by
      intro k hk
      have := h (k + 1) (by simpa using hk)
      simp only [List.take_succ_cons, depth_cons] at this
      omega
    have hstep := ih _ hrest
    rw [depth_cons]
    by_cases c1 : ty = ord '('
    · simp only [c1, if_true] at h1 hstep ⊢
      have hn : ¬ tot + 1 < 0 := by omega
      simp only [paren_loop, if_true, hn, if_false, hstep]
      congr 1
      ring
    · by_cases c2 : ty = ord ')'
      · have hne : ¬ ord ')' = ord '(' := by decide
        simp only [c2, hne, if_true, if_false] at h1 hstep ⊢
        have hn : ¬ tot - 1 < 0 := by omega
        have he : tot + -1 = tot - 1 := by ring
        rw [he] at hstep
        simp only [paren_loop, hne, if_true, if_false, hn, hstep]
        congr 1
        ring
      · simp only [c1, c2, if_false, add_zero] at h1 hstep ⊢
        have hn : ¬ tot < 0 := by omega
        simp only [paren_loop, c1, c2, if_false, hn, hstep]
        congr 1
        ring

/-- C10: for every token array and range `[p, q]` with `0 <= p < q` whose token `p` is
`(`, whose token `q` is `)` and whose interior is balanced, `check_parentheses` is true
and `eval` on `[p, q]` is `eval` on `[p+1, q-1]`: one more unit of fuel gives the same
answer, so both come to the same outcome (value or failure), or neither finishes. -/
theorem strip_outer_pair (m : Machine) (toks : List Token) (p q : Int)
    (hp : 0 ≤ p) (hpq : p < q)
    (hopen : (tokAt toks p).type = ord '(') (hclose : (tokAt toks q).type = ord ')')
    (hbal : balanced (typesIn toks (p + 1) (q - 1))) :
    check_parentheses toks p q = true ∧
    (∀ fuel, eval m toks (fuel + 1) p q = eval m toks fuel (p + 1) (q - 1)) ∧
    (∀ r, (∃ fuel, eval m toks fuel p q = some r) ↔
      (∃ fuel, eval m toks fuel (p + 1) (q - 1) = some r)) := by
  have hq : q < (toks.length : Int) := by
    by_contra hge
    have hlen : toks.length ≤ q.toNat := by omega
    have hz : tokAt toks q = Token.zero := by
      unfold tokAt
      exact List.getD_eq_default _ _ hlen
    rw [hz] at hclose
    exact absurd hclose (by decide)
  have hchk : check_parentheses toks p q = true := by
    have hloop := paren_loop_of_nonneg (typesIn toks (p + 1) (q - 1)) 0
      (fun k hk => by simpa using hbal.1 k hk)
    simp only [check_parentheses, hopen, hclose, hloop, hbal.2]
    simp
  have hstep : ∀ fuel, eval m toks (fuel + 1) p q = eval m toks fuel (p + 1) (q - 1) := by
    intro fuel
    have e1 : ¬ p > q := by omega
    have e2 : ¬ (p < 0 ∨ (toks.length : Int) ≤ q) := by omega
    have e3 : ¬ p = q := by omega
    simp only [eval, e1, e2, e3, hchk, if_true, if_false]
  refine ⟨hchk, hstep, fun r => ⟨?_, ?_⟩⟩
  · rintro ⟨fuel, h⟩
    cases fuel with
    | zero => exact absurd h (by simp [eval])
    | succ n => exact ⟨n, by rw [← hstep n]; exact h⟩
  · rintro ⟨fuel, h⟩
    exact ⟨fuel + 1, by rw [hstep fuel]; exact h⟩

/-- C10 at the stream of `(1+2)`: stripping the pair leaves the value 3. -/
theorem strip_outer_pair_witness :
    check_parentheses stream_paren_1_plus_2 0 4 = true ∧
    (∀ fuel, eval machine0 stream_paren_1_plus_2 (fuel + 1) 0 4 =
      eval machine0 stream_paren_1_plus_2 fuel 1 3) ∧
    (∀ r, (∃ fuel, eval machine0 stream_paren_1_plus_2 fuel 0 4 = some r) ↔
      (∃ fuel, eval machine0 stream_paren_1_plus_2 fuel 1 3 = some r)) :=
  strip_outer_pair machine0 stream_paren_1_plus_2 0 4 (by decide) (by decide)
    (by decide) (by decide)
    ⟨by
      intro k hk
      have hk4 : k ≤ 3 := hk
      interval_cases k <;> decide, by decide⟩

/-! ### Literals -/

/-- The fold of `digitsVal` is the positional value of the digits. -/
theorem digitsVal_eq_ofDigits (base : Nat) (ds : List Char) :
    digitsVal base ds = Nat.ofDigits base (ds.reverse.map digitVal) := by
  induction ds using List.reverseRecOn with
  | nil => rfl
  | append_singleton ds c ih =>
    have h1 : digitsVal base (ds ++ [c]) = digitsVal base ds * base + digitVal c := by
      simp [digitsVal, List.foldl_append]
    rw [h1, ih, List.reverse_append, List.reverse_singleton, List.singleton_append,
      List.map_cons, Nat.ofDigits_cons]
    ring

/-- On a hexadecimal digit the library's digit value is the value of the digit, and
the character belongs to the class `[0-9a-fA-F]`. -/
theorem digitVal_hex (c : Char) (h : c ∈ hexDigits) :
    digitVal c = hexDigitVal c ∧ inRanges hexdigit c = true := by
  simp only [hexDigits, decDigits, List.cons_append, List.nil_append, List.mem_cons,
    List.mem_nil_iff, or_false] at h
  rcases h with h | h | h | h | h | h | h | h | h | h | h | h | h | h | h | h | h | h |
    h | h | h | h <;> subst h <;> decide

/-- On a decimal digit the library's digit value is the value of the digit, and the
character belongs to the class `[0-9]`. -/
theorem digitVal_dec (c : Char) (h : c ∈ decDigits) :
    digitVal c = decDigits.indexOf c ∧ inRanges digit c = true := by
  simp only [decDigits, List.mem_cons, List.mem_nil_iff, or_false] at h
  rcases h with h | h | h | h | h | h | h | h | h | h <;> subst h <;> decide

/-- The conversion `strtol(.., 16)` of a text `0x` or `0X` followed by hexadecimal
digits: the value of the digits, saturated at `LONG_MAX`, in its low 32 bits. -/
theorem strtol16_hex (x : Char) (ds : List Char) (hx : x = 'x' ∨ x = 'X')
    (hne : ds ≠ []) (hall : ∀ c ∈ ds, c ∈ hexDigits) :
    strtol16 ('0' :: x :: ds) = min (hexVal ds) (2 ^ 63 - 1) % WORD := by
  obtain ⟨h, t, rfl⟩ : ∃ h t, ds = h :: t := by
    cases ds with
    | nil => exact absurd rfl hne
    | cons h t => exact ⟨h, t, rfl⟩
  have hh : inRanges hexdigit h = true := (digitVal_hex h (hall h (by simp))).2
  have hsp : List.dropWhile isspace ('0' :: x :: h :: t) = '0' :: x :: h :: t := by
    rw [List.dropWhile_cons_of_neg (by decide)]
  have hmark : dropHexMark ('0' :: x :: h :: t) = h :: t := by
    rcases hx with rfl | rfl <;> simp [dropHexMark, hh]
  have htake : List.takeWhile (inRanges hexdigit) (h :: t) = h :: t := by
    rw [List.takeWhile_eq_self_iff]
    intro c hc
    exact (digitVal_hex c (hall c hc)).2
  have hval : digitsVal 16 (h :: t) = hexVal (h :: t) := by
    rw [digitsVal_eq_ofDigits, hexVal]
    congr 1
    apply List.map_congr_left
    intro c hc
    exact (digitVal_hex c (hall c (List.mem_reverse.mp hc))).1
  have hsign : takeSign ('0' :: x :: h :: t) = (false, '0' :: x :: h :: t) := rfl
  simp only [strtol16, hsp, hsign, hmark, htake, hval, toWord]
  simp

/-- On a range of one token inside the array `eval` is the singleton case. -/
theorem eval_at_single (m : Machine) (toks : List Token) (fuel : Nat) (p : Int)
    (hp : 0 ≤ p) (hlen : p < toks.length) :
    eval m toks (fuel + 1) p p = some (eval_single m (tokAt toks p)) := by
  have e1 : ¬ p > p := by omega
  have e2 : ¬ (p < 0 ∨ (toks.length : Int) ≤ p) := by omega
  simp only [eval, e1, e2, if_true, if_false]

/-- C11, the claim refuted: the hex literal `0x10000000000000000` has 17 digits and the
value 2 to the 64, which is 0 modulo 2 to the 32; `eval` returns `0xFFFFFFFF`, because
`strtol` saturates at `LONG_MAX`. -/
theorem eval_hex_saturates :
    eval machine0 stream_hex_2_pow_64 1 0 0 = some (.ret 4294967295) ∧
    hexVal "10000000000000000".toList % 2 ^ 32 = 0 := by
  refine ⟨by decide, ?_⟩
  simp [hexVal, hexDigitVal, decDigits, Nat.ofDigits, List.indexOf_cons]

/-- C11, amended: on a hex-literal token whose text, ended by a NUL inside its array, is
`0x` or `0X` followed by 1 to 29 hexadecimal digits, `eval` returns the base-16 value
of the digits modulo 2 to the 32 when that value is below 2 to the 63 (always so for
up to 15 digits), and `0xFFFFFFFF` otherwise. -/
theorem eval_hex_literal (m : Machine) (toks : List Token) (fuel : Nat) (p : Int)
    (x : Char) (ds : List Char) (hp : 0 ≤ p) (hlen : p < toks.length)
    (hty : (tokAt toks p).type = TK_HEX)
    (_hterm : terminated (tokAt toks p))
    (htext : cstr (tokAt toks p).str = '0' :: x :: ds)
    (hx : x = 'x' ∨ x = 'X') (hne : ds ≠ []) (_hfit : ds.length ≤ 29)
    (hall : ∀ c ∈ ds, c ∈ hexDigits) :
    eval m toks (fuel + 1) p p =
      some (.ret (if hexVal ds < 2 ^ 63 then hexVal ds % 2 ^ 32 else 2 ^ 32 - 1)) := by
  have n1 : ¬ TK_HEX = TK_NUM := by decide
  have n2 : ¬ TK_HEX = TK_REG := by decide
  rw [eval_at_single m toks fuel p hp hlen]
  simp only [eval_single, hty, n1, n2, if_false, if_true, htext,
    strtol16_hex x ds hx hne hall]
  congr 2
  by_cases hlt : hexVal ds < 2 ^ 63
  · rw [if_pos hlt, Nat.min_eq_left (by omega)]
    rfl
  · rw [if_neg hlt, Nat.min_eq_right (by omega)]
    decide

/-- C11, amended, at the token `0x10`: the value is 16. -/
theorem eval_hex_literal_witness :
    eval machine0 [token TK_HEX "0x10"] 1 0 0 = some (.ret 16) :=
  (eval_hex_literal machine0 [token TK_HEX "0x10"] 0 0 'x' ['1', '0'] (by decide)
    (by decide) (by decide) (List.mem_of_elem_eq_true (by decide)) (by decide)
    (Or.inl rfl) (by decide) (by decide) (by decide)).trans
    (by simp [hexVal, hexDigitVal, decDigits, Nat.ofDigits, List.indexOf_cons])


/-- C12: a lexeme of 33 digits is not truncated.  With the table `rules` the scan
never gets to store it (the rule `||` holds the cursor at the first digit until
`tokens` is overrun); with the table as meant, and in `record` itself, `strncpy` is
told to write 33 bytes into the 32 bytes of `str`; for no lexeme longer than 32 does
`record` return.  A lexeme of exactly 32 digits is stored whole, without a terminating
NUL, so its text is not cut to 31 characters either. -/
theorem long_lexeme_not_truncated :
    make_token rules 40 Sdb.pristine text_33_digits = some (.undef .bounds) ∧
    make_token rules_as_meant 40 Sdb.pristine text_33_digits =
      some (.undef .strOverflow) ∧
    record Sdb.pristine TK_NUM text_33_digits 33 = .undef .strOverflow ∧
    (∀ (st st2 : Sdb) (ty : Int) (s : List Char) (k : Nat),
      record st ty s (STR_SIZE + 1 + k) ≠ .ret st2) ∧
    record Sdb.pristine TK_NUM text_32_digits 32 = .ret after_32_digits ∧
    cstr (tokAt after_32_digits.tokens 1).str = text_32_digits := by
  refine ⟨by decide, by decide, by decide, ?_, by decide, by decide⟩
  intro st st2 ty s k
  have hlong : STR_SIZE < STR_SIZE + 1 + k := by omega
  unfold record
  split
  · exact fun h => by cases h
  · simp only []
    split
    · exact fun h => by cases h
    · exact fun h => by cases h

/-- The conversion `sscanf(.., "%d", ..)` stores a value when the text starts with a
decimal digit. -/
theorem sscanf_d_of_digit (d : Char) (rest : List Char) (hd : d ∈ decDigits) :
    ∃ v, sscanf_d (d :: rest) = some v := by
  simp only [decDigits, List.mem_cons, List.mem_nil_iff, or_false] at hd
  rcases hd with h | h | h | h | h | h | h | h | h | h <;> subst h <;>
    simp [sscanf_d, takeSign, List.dropWhile, List.takeWhile, isspace, inRanges, digit]

/-- C13: for a range of one token inside the array, the text of the token ended by a
NUL inside its array: `eval` yields a value exactly when the token is a numeric
literal, a hex literal or a register reference (for a numeric literal whatever its
text: when `sscanf` converts nothing the word that `val` holds is returned); for a
register reference the value is the collaborator's when its flag is true and 0 when
it is false; for every other type `eval` stops at the `assert(0)` of the singleton
case. -/
theorem eval_singleton (m : Machine) (toks : List Token) (fuel : Nat) (p : Int)
    (hp : 0 ≤ p) (hlen : p < toks.length) (_hterm : terminated (tokAt toks p)) :
    ((∃ v, eval m toks (fuel + 1) p p = some (.ret v)) ↔
      ((tokAt toks p).type = TK_NUM ∨ (tokAt toks p).type = TK_HEX ∨
        (tokAt toks p).type = TK_REG)) ∧
    ((tokAt toks p).type = TK_REG →
      eval m toks (fuel + 1) p p =
        some (.ret (if (m.isa_reg_str2val (cstr (tokAt toks p).str)).2 then
          (m.isa_reg_str2val (cstr (tokAt toks p).str)).1 % WORD else 0))) ∧
    ((tokAt toks p).type ≠ TK_NUM → (tokAt toks p).type ≠ TK_HEX →
      (tokAt toks p).type ≠ TK_REG → eval m toks (fuel + 1) p p = some (.abort .single)) := by
  rw [eval_at_single m toks fuel p hp hlen]
  have n1 : ¬ TK_HEX = TK_NUM := by decide
  have n2 : ¬ TK_HEX = TK_REG := by decide
  have n3 : ¬ TK_REG = TK_NUM := by decide
  refine ⟨⟨?_, ?_⟩, ?_, ?_⟩
  · rintro ⟨v, hv⟩
    by_contra hk
    simp only [not_or] at hk
    simp only [eval_single, hk.1, hk.2.1, hk.2.2, if_false] at hv
    cases hv
  · rintro (h | h | h)
    · simp only [eval_single, h, if_true]
      split <;> exact ⟨_, rfl⟩
    · exact ⟨strtol16 (cstr (tokAt toks p).str),
        by simp only [eval_single, h, n1, n2, if_false, if_true]⟩
    · simp only [eval_single, h, n3, if_false, if_true]
      split <;> exact ⟨_, rfl⟩
  · intro h
    simp only [eval_single, h, n3, if_false, if_true]
    split <;> rfl
  · intro h1 h2 h3
    simp only [eval_single, h1, h2, h3, if_false]

/-- C13 at the token stream of `(1+2)`, index 1 (the number 1). -/
theorem eval_singleton_witness :
    ((∃ v, eval machine0 stream_paren_1_plus_2 1 1 1 = some (.ret v)) ↔
      ((tokAt stream_paren_1_plus_2 1).type = TK_NUM ∨
        (tokAt stream_paren_1_plus_2 1).type = TK_HEX ∨
        (tokAt stream_paren_1_plus_2 1).type = TK_REG)) ∧
    ((tokAt stream_paren_1_plus_2 1).type = TK_REG →
      eval machine0 stream_paren_1_plus_2 1 1 1 =
        some (.ret (if (machine0.isa_reg_str2val
            (cstr (tokAt stream_paren_1_plus_2 1).str)).2 then
          (machine0.isa_reg_str2val (cstr (tokAt stream_paren_1_plus_2 1).str)).1 % WORD
          else 0))) ∧
    ((tokAt stream_paren_1_plus_2 1).type ≠ TK_NUM →
      (tokAt stream_paren_1_plus_2 1).type ≠ TK_HEX →
      (tokAt stream_paren_1_plus_2 1).type ≠ TK_REG →
      eval machine0 stream_paren_1_plus_2 1 1 1 = some (.abort .single)) :=
  eval_singleton machine0 stream_paren_1_plus_2 0 1 (by decide) (by decide)
    (List.mem_of_elem_eq_true (by decide))

/-- C17: on the tokens minus, minus, number of the text `--3` the pass of `expr` turns
the first minus into negate and leaves the second a subtraction: when the second is
examined the token before it already has the type `TK_NEG`, which the test of line 240
does not list.  `eval` on the result stops at an `assert(0)`. -/
theorem reclassify_minus_minus :
    reclassify_loop 3 0 stream_minus_minus_3 =
      [token TK_NEG "-", token (ord '-') "-", token TK_NUM "3"] ∧
    ∀ m : Machine, eval m (reclassify_loop 3 0 stream_minus_minus_3) 3 0 2 =
      some (.abort .single) := by
  refine ⟨by decide, fun m => rfl⟩

/-- C20: for every rule table, machine, text and variables, when `make_token` succeeds
`expr` comes to what `eval` comes to on the reclassified tokens, and a returned result
carries the success flag exactly as the caller passed it. -/
theorem expr_keeps_success (rs : List rule) (m : Machine) (fuel : Nat) (st st1 : Sdb)
    (e : List Char) (success : Bool)
    (hmt : make_token rs fuel st e = some (.ret (true, st1))) :
    (match eval m (reclassify_loop st1.nr_token 0 st1.tokens) fuel 0
        (Int.ofNat st1.nr_token - 1) with
      | some (.ret v) =>
        expr rs m fuel st e success =
          some (.ret ⟨v, success, ⟨reclassify_loop st1.nr_token 0 st1.tokens,
            st1.nr_token⟩⟩)
      | some (.abort s) => expr rs m fuel st e success = some (.abort s)
      | some (.undef u) => expr rs m fuel st e success = some (.undef u)
      | none => expr rs m fuel st e success = none) ∧
    (∀ r, expr rs m fuel st e success = some (.ret r) → r.success = success) := by
  constructor
  · simp only [expr, hmt]
    split <;> rename_i h <;> simp only [h]
  · intro r hr
    simp only [expr, hmt] at hr
    split at hr
    · cases hr
    · cases hr
    · cases hr
    · simp only [Option.some.injEq, Outcome.ret.injEq] at hr
      rw [← hr]

/-- C20 at the table `rules`, the text `-` and variables whose slot 1 holds a number
token with the text `05`: the scan stores the minus sign over the first byte, `eval`
returns the negation of -5, and the flag passed as false comes back false. -/
theorem expr_keeps_success_witness :
    expr rules machine0 3 stale_num "-".toList false =
      some (.ret ⟨5, false, stale_num_after⟩) ∧
    (∀ r, expr rules machine0 3 stale_num "-".toList false = some (.ret r) →
      r.success = false) :=
  expr_keeps_success rules machine0 3 stale_num ⟨token (ord '-') "" ::
    token TK_NUM "-5" :: List.replicate 30 Token.zero, 2⟩ "-".toList false (by decide)


/-! ### The reclassification pass -/

/-- Reading `tokens[k]` at a natural index. -/
theorem tokAt_cast (toks : List Token) (k : Nat) :
    tokAt toks (k : Int) = toks.getD k Token.zero := rfl

/-- An assignment to the type of slot `i` leaves every other slot as it was. -/
theorem getD_setType_ne (toks : List Token) (i k : Nat) (ty : Int) (h : i ≠ k) :
    (setType toks i ty).getD k Token.zero = toks.getD k Token.zero := by
  simp only [setType, List.getD_eq_getElem?_getD, List.getElem?_modify_ne _ _ h]

/-- An assignment to the type of a slot changes no text. -/
theorem str_setType (toks : List Token) (i k : Nat) (ty : Int) :
    ((setType toks i ty).getD k Token.zero).str = (toks.getD k Token.zero).str := by
  simp only [setType, List.getD_eq_getElem?_getD, List.getElem?_modify]
  cases toks[k]? with
  | none => rfl
  | some t => by_cases h : i = k <;> simp [h]

/-- An assignment to the type of a slot inside the array sets that type. -/
theorem type_setType_eq (toks : List Token) (i : Nat) (ty : Int) (h : i < toks.length) :
    ((setType toks i ty).getD i Token.zero).type = ty := by
  simp only [setType, List.getD_eq_getElem?_getD, List.getElem?_modify_eq,
    List.getElem?_eq_getElem h]
  rfl

/-- Assigning to a slot the type it has changes nothing. -/
theorem setType_self (toks : List Token) (i : Nat) :
    setType toks i (toks.getD i Token.zero).type = toks := by
  apply List.ext_getElem?
  intro k
  simp only [setType, List.getElem?_modify, List.getD_eq_getElem?_getD]
  by_cases h : i = k
  · subst h
    cases hk : toks[i]? with
    | none => rfl
    | some t => simp
  · cases hk : toks[k]? with
    | none => rfl
    | some t => simp [h]

/-- One iteration of the pass assigns `nextType` to the type of slot `i`. -/
theorem reclassify_eq (toks : List Token) (i : Nat) :
    reclassify toks i = setType toks i
      (nextType (decide (i = 0)) (tokAt toks (Int.ofNat i - 1)).type
        (tokAt toks i).type) := by
  have hz : ¬ (Token.zero).type = ord '*' := by decide
  have hlt : (tokAt toks i).type = ord '*' → i < toks.length := by
    intro hstar
    by_contra hge
    rw [tokAt_cast, List.getD_eq_default _ _ (by omega)] at hstar
    exact hz hstar
  have hself : setType toks i (tokAt toks i).type = toks := setType_self toks i
  have hset : (tokAt toks i).type = ord '*' →
      (tokAt (setType toks i TK_DREF) i).type = TK_DREF := fun h =>
    type_setType_eq toks i TK_DREF (hlt h)
  have d1 : ¬ TK_DREF = ord '-' := by decide
  have d2 : ¬ ord '*' = ord '-' := by decide
  have d3 : ¬ ord '-' = ord '*' := by decide
  by_cases hstar : (tokAt toks i).type = ord '*'
  · by_cases hc : i = 0 ∨ ((tokAt toks (Int.ofNat i - 1)).type ≠ TK_NUM ∧
        (tokAt toks (Int.ofNat i - 1)).type ≠ ord ')' ∧
        (tokAt toks (Int.ofNat i - 1)).type ≠ TK_REG ∧
        (tokAt toks (Int.ofNat i - 1)).type ≠ TK_HEX)
    · have h1 : (if (tokAt toks i).type = ord '*' ∧ (i = 0 ∨
          ((tokAt toks (Int.ofNat i - 1)).type ≠ TK_NUM ∧
          (tokAt toks (Int.ofNat i - 1)).type ≠ ord ')' ∧
          (tokAt toks (Int.ofNat i - 1)).type ≠ TK_REG ∧
          (tokAt toks (Int.ofNat i - 1)).type ≠ TK_HEX)) then setType toks i TK_DREF
          else toks) = setType toks i TK_DREF := if_pos ⟨hstar, hc⟩
      have hn : nextType (decide (i = 0)) (tokAt toks (Int.ofNat i - 1)).type
          (tokAt toks i).type = TK_DREF := by
        unfold nextType
        rw [if_pos hstar, if_pos (by simpa using hc)]
      rw [hn]
      simp only [reclassify, h1]
      rw [if_neg]
      rw [hset hstar]
      exact fun h => d1 h.1
    · have h1 : (if (tokAt toks i).type = ord '*' ∧ (i = 0 ∨
          ((tokAt toks (Int.ofNat i - 1)).type ≠ TK_NUM ∧
          (tokAt toks (Int.ofNat i - 1)).type ≠ ord ')' ∧
          (tokAt toks (Int.ofNat i - 1)).type ≠ TK_REG ∧
          (tokAt toks (Int.ofNat i - 1)).type ≠ TK_HEX)) then setType toks i TK_DREF
          else toks) = toks := if_neg (fun h => hc h.2)
      have hn : nextType (decide (i = 0)) (tokAt toks (Int.ofNat i - 1)).type
          (tokAt toks i).type = ord '*' := by
        unfold nextType
        rw [if_pos hstar, if_neg (by simpa using hc)]
      rw [hn]
      simp only [reclassify, h1]
      rw [if_neg, ← hstar, hself]
      rw [hstar]
      exact fun h => d2 h.1
  · have h1 : (if (tokAt toks i).type = ord '*' ∧ (i = 0 ∨
        ((tokAt toks (Int.ofNat i - 1)).type ≠ TK_NUM ∧
        (tokAt toks (Int.ofNat i - 1)).type ≠ ord ')' ∧
        (tokAt toks (Int.ofNat i - 1)).type ≠ TK_REG ∧
        (tokAt toks (Int.ofNat i - 1)).type ≠ TK_HEX)) then setType toks i TK_DREF
        else toks) = toks := if_neg (fun h => hstar h.1)
    simp only [reclassify, h1]
    by_cases hminus : (tokAt toks i).type = ord '-'
    · by_cases hc : i = 0 ∨ ((tokAt toks (Int.ofNat i - 1)).type = ord '(' ∨
          (tokAt toks (Int.ofNat i - 1)).type = TK_DREF ∨
          (tokAt toks (Int.ofNat i - 1)).type = ord '+' ∨
          (tokAt toks (Int.ofNat i - 1)).type = ord '-' ∨
          (tokAt toks (Int.ofNat i - 1)).type = ord '*' ∨
          (tokAt toks (Int.ofNat i - 1)).type = ord '/')
      · have hn : nextType (decide (i = 0)) (tokAt toks (Int.ofNat i - 1)).type
            (tokAt toks i).type = TK_NEG := by
          unfold nextType
          rw [if_neg hstar, if_pos hminus, if_pos (by simpa using hc)]
        rw [hn, if_pos ⟨hminus, hc⟩]
      · have hn : nextType (decide (i = 0)) (tokAt toks (Int.ofNat i - 1)).type
            (tokAt toks i).type = ord '-' := by
          unfold nextType
          rw [if_neg hstar, if_pos hminus, if_neg (by simpa using hc)]
        rw [hn, if_neg (fun h => hc h.2), ← hminus, hself]
    · have hn : nextType (decide (i = 0)) (tokAt toks (Int.ofNat i - 1)).type
          (tokAt toks i).type = (tokAt toks i).type := by
        unfold nextType
        rw [if_neg hstar, if_neg hminus]
      rw [hn, hself, if_neg (fun h => hminus h.1)]

/-- Reading the token before `tokens[k]` for `k` at least 1. -/
theorem tokAt_pred (toks : List Token) (k : Nat) (hk : 1 ≤ k) :
    tokAt toks (Int.ofNat k - 1) = toks.getD (k - 1) Token.zero := by
  unfold tokAt
  congr 1
  simp only [Int.ofNat_eq_coe]
  omega

/-- For `tokens[0]` the type given by the pass does not depend on `prev`. -/
theorem nextType_first (prev prev1 ty : Int) :
    nextType true prev ty = nextType true prev1 ty := by
  simp [nextType]

/-- The pass leaves the type 0 of a slot outside the array as it is. -/
theorem nextType_zero (first : Bool) (prev : Int) : nextType first prev 0 = 0 := by
  have h1 : ¬ (0 : Int) = ord '*' := by decide
  have h2 : ¬ (0 : Int) = ord '-' := by decide
  simp only [nextType, h1, h2, if_false]

/-- Applying the step twice with the same neighbour is applying it once. -/
theorem nextType_idem (first : Bool) (prev ty : Int) :
    nextType first prev (nextType first prev ty) = nextType first prev ty := by
  have d1 : ¬ TK_DREF = ord '*' := by decide
  have d2 : ¬ TK_DREF = ord '-' := by decide
  have d3 : ¬ TK_NEG = ord '*' := by decide
  have d4 : ¬ TK_NEG = ord '-' := by decide
  have d5 : ¬ ord '-' = ord '*' := by decide
  unfold nextType
  by_cases h1 : ty = ord '*'
  · by_cases c : first = true ∨ (prev ≠ TK_NUM ∧ prev ≠ ord ')' ∧ prev ≠ TK_REG ∧
        prev ≠ TK_HEX)
    · simp only [h1, c, if_true, d1, d2, if_false]
    · simp only [h1, c, if_true, if_false]
  · by_cases h2 : ty = ord '-'
    · by_cases c : first = true ∨ (prev = ord '(' ∨ prev = TK_DREF ∨ prev = ord '+' ∨
          prev = ord '-' ∨ prev = ord '*' ∨ prev = ord '/')
      · simp only [h2, d5, c, if_true, if_false, d3, d4]
      · simp only [h2, d5, c, if_true, if_false]
    · simp only [h1, h2, if_false]

/-- The step keeps a type inside and outside the set of number, hex, register, `)`. -/
theorem nextType_operand_end (first : Bool) (prev ty : Int) :
    nextType first prev ty ∈ [TK_NUM, TK_HEX, TK_REG, ord ')'] ↔
      ty ∈ [TK_NUM, TK_HEX, TK_REG, ord ')'] := by
  unfold nextType
  by_cases h1 : ty = ord '*'
  · subst h1
    split_ifs <;> decide
  · by_cases h2 : ty = ord '-'
    · subst h2
      split_ifs <;> decide
    · simp only [h1, h2, if_false]

/-- What the loop of the pass does, `n` iterations from index `j`: lengths and texts
stay, slots outside `j .. j+n-1` stay, and the type of a slot inside is `nextType` of
its old type and of the new type of the slot before it. -/
theorem reclassify_loop_spec (n : Nat) : ∀ (j : Nat) (toks : List Token),
    (reclassify_loop n j toks).length = toks.length ∧
    (∀ k, ((reclassify_loop n j toks).getD k Token.zero).str =
      (toks.getD k Token.zero).str) ∧
    (∀ k, k < j ∨ j + n ≤ k →
      (reclassify_loop n j toks).getD k Token.zero = toks.getD k Token.zero) ∧
    (∀ k, j ≤ k → k < j + n →
      (tokAt (reclassify_loop n j toks) k).type =
        nextType (decide (k = 0)) (tokAt (reclassify_loop n j toks) (Int.ofNat k - 1)).type
          (tokAt toks k).type) := by
  induction n with
  | zero =>
    intro j toks
    refine ⟨rfl, fun _ => rfl, fun _ _ => rfl, fun k h1 h2 => ?_⟩
    omega
  | succ n ih =>
    intro j toks
    obtain ⟨ihlen, ihstr, ihout, ihin⟩ := ih (j + 1) (reclassify toks j)
    have hrec := reclassify_eq toks j
    have hloop : reclassify_loop (n + 1) j toks =
        reclassify_loop n (j + 1) (reclassify toks j) := rfl
    rw [hloop]
    refine ⟨?_, ?_, ?_, ?_⟩
    · rw [ihlen, hrec, setType, List.length_modify]
    · intro k
      rw [ihstr k, hrec, str_setType]
    · intro k hk
      rw [ihout k (by omega), hrec, getD_setType_ne _ _ _ _ (by omega)]
    · intro k hk1 hk2
      by_cases hkj : k = j
      · subst hkj
        have hprev : k ≠ 0 →
            (tokAt (reclassify_loop n (k + 1) (reclassify toks k)) (Int.ofNat k - 1)).type =
              (tokAt toks (Int.ofNat k - 1)).type := by
          intro hk0
          rw [tokAt_pred _ k (by omega), tokAt_pred _ k (by omega), ihout (k - 1) (by omega),
            hrec, getD_setType_ne _ _ _ _ (by omega)]
        have hcur : (tokAt (reclassify_loop n (k + 1) (reclassify toks k)) k).type =
            nextType (decide (k = 0)) (tokAt toks (Int.ofNat k - 1)).type
              (tokAt toks k).type := by
          rw [tokAt_cast, ihout k (by omega), hrec]
          by_cases hlt : k < toks.length
          · rw [type_setType_eq toks k _ hlt]
          · have hz : tokAt toks k = Token.zero := by
              rw [tokAt_cast, List.getD_eq_default _ _ (by omega)]
            rw [setType, List.modify_eq_self (by omega), ← tokAt_cast, hz]
            exact (nextType_zero _ _).symm
        rw [hcur]
        by_cases hk0 : k = 0
        · subst hk0
          exact nextType_first _ _ _
        · rw [hprev hk0]
      · have hk3 : j + 1 ≤ k := by omega
        rw [ihin k hk3 (by omega)]
        congr 1
        rw [tokAt_cast, tokAt_cast, hrec, getD_setType_ne _ _ _ _ (by omega)]

/-- C16: for every token array and every index `i` inside the pass whose token has the
type `*`: after the pass the token is dereference exactly when it is the first token
or the token before it is not a number, hex literal, register or `)`; else it is
still `*`.  (The token before may be read before or after the pass: the pass does
not move a type into or out of that set.) -/
theorem star_reclassified (toks : List Token) (n i : Nat) (hi : i < n)
    (hstar : (tokAt toks i).type = ord '*') :
    ((tokAt (reclassify_loop n 0 toks) i).type = TK_DREF ↔
      (i = 0 ∨ (tokAt toks (Int.ofNat i - 1)).type ∉
        [TK_NUM, TK_HEX, TK_REG, ord ')'])) ∧
    ((tokAt (reclassify_loop n 0 toks) i).type ≠ TK_DREF →
      (tokAt (reclassify_loop n 0 toks) i).type = ord '*') ∧
    (i ≠ 0 →
      ((tokAt (reclassify_loop n 0 toks) (Int.ofNat i - 1)).type ∈
          [TK_NUM, TK_HEX, TK_REG, ord ')'] ↔
        (tokAt toks (Int.ofNat i - 1)).type ∈ [TK_NUM, TK_HEX, TK_REG, ord ')'])) := by
  obtain ⟨_, _, _, hin⟩ := reclassify_loop_spec n 0 toks
  have hprev : i ≠ 0 →
      ((tokAt (reclassify_loop n 0 toks) (Int.ofNat i - 1)).type ∈
          [TK_NUM, TK_HEX, TK_REG, ord ')'] ↔
        (tokAt toks (Int.ofNat i - 1)).type ∈ [TK_NUM, TK_HEX, TK_REG, ord ')']) := by
    intro hi0
    have hcast : Int.ofNat i - 1 = ((i - 1 : Nat) : Int) := by
      simp only [Int.ofNat_eq_coe]
      omega
    rw [hcast, hin (i - 1) (by omega) (by omega)]
    exact nextType_operand_end _ _ _
  have hty := hin i (by omega) (by omega)
  rw [hstar] at hty
  have d1 : ¬ ord '*' = TK_DREF := by decide
  have hmem : ∀ x : Int, x ∉ [TK_NUM, TK_HEX, TK_REG, ord ')'] ↔
      (x ≠ TK_NUM ∧ x ≠ ord ')' ∧ x ≠ TK_REG ∧ x ≠ TK_HEX) := by
    intro x
    simp only [List.mem_cons, List.mem_nil_iff, or_false, not_or]
    tauto
  refine ⟨?_, ?_, hprev⟩
  · rw [hty]
    by_cases hi0 : i = 0
    · subst hi0
      simp [nextType]
    · have hp := hprev hi0
      unfold nextType
      simp only [if_true, decide_eq_true_eq, hi0, false_or]
      have hC := (hmem (tokAt (reclassify_loop n 0 toks) (Int.ofNat i - 1)).type).symm.trans
        (not_congr hp)
      by_cases hc : (tokAt (reclassify_loop n 0 toks) (Int.ofNat i - 1)).type ≠ TK_NUM ∧
          (tokAt (reclassify_loop n 0 toks) (Int.ofNat i - 1)).type ≠ ord ')' ∧
          (tokAt (reclassify_loop n 0 toks) (Int.ofNat i - 1)).type ≠ TK_REG ∧
          (tokAt (reclassify_loop n 0 toks) (Int.ofNat i - 1)).type ≠ TK_HEX
      · rw [if_pos hc]
        exact ⟨fun _ => hC.mp hc, fun _ => rfl⟩
      · rw [if_neg hc]
        exact ⟨fun h => absurd h d1, fun h => absurd (hC.mpr h) hc⟩
  · rw [hty]
    unfold nextType
    simp only [if_true]
    split_ifs
    · intro h
      exact absurd rfl h
    · intro _
      rfl

/-- C16 at the tokens of `2**3` (number, `*`, `*`, number), index 2: the second star
follows a star and becomes dereference. -/
theorem star_reclassified_witness :
    ((tokAt (reclassify_loop 4 0 [token TK_NUM "2", token (ord '*') "*",
        token (ord '*') "*", token TK_NUM "3"]) 2).type = TK_DREF ↔
      ((2 : Nat) = 0 ∨ (tokAt [token TK_NUM "2", token (ord '*') "*", token (ord '*') "*",
        token TK_NUM "3"] (Int.ofNat 2 - 1)).type ∉ [TK_NUM, TK_HEX, TK_REG, ord ')'])) ∧
    ((tokAt (reclassify_loop 4 0 [token TK_NUM "2", token (ord '*') "*",
        token (ord '*') "*", token TK_NUM "3"]) 2).type ≠ TK_DREF →
      (tokAt (reclassify_loop 4 0 [token TK_NUM "2", token (ord '*') "*",
        token (ord '*') "*", token TK_NUM "3"]) 2).type = ord '*') ∧
    ((2 : Nat) ≠ 0 →
      ((tokAt (reclassify_loop 4 0 [token TK_NUM "2", token (ord '*') "*",
          token (ord '*') "*", token TK_NUM "3"]) (Int.ofNat 2 - 1)).type ∈
          [TK_NUM, TK_HEX, TK_REG, ord ')'] ↔
        (tokAt [token TK_NUM "2", token (ord '*') "*", token (ord '*') "*",
          token TK_NUM "3"] (Int.ofNat 2 - 1)).type ∈
          [TK_NUM, TK_HEX, TK_REG, ord ')'])) :=
  star_reclassified [token TK_NUM "2", token (ord '*') "*", token (ord '*') "*",
    token TK_NUM "3"] 4 2 (by decide) (by decide)

/-- C19: for every token array and every `nr_token`, running the loop of the pass
again on its own result changes nothing; the pass keeps the length of the array and
every text. -/
theorem reclassify_idempotent (toks : List Token) (n : Nat) :
    reclassify_loop n 0 (reclassify_loop n 0 toks) = reclassify_loop n 0 toks ∧
    (reclassify_loop n 0 toks).length = toks.length ∧
    (reclassify_loop n 0 toks).map (fun t => t.str) = toks.map (fun t => t.str) := by
  obtain ⟨hlen, hstr, _, hin⟩ := reclassify_loop_spec n 0 toks
  have hfix : ∀ k j, j + k ≤ n →
      reclassify_loop k j (reclassify_loop n 0 toks) = reclassify_loop n 0 toks := by
    intro k
    induction k with
    | zero => intro j _; rfl
    | succ k ih =>
      intro j hj
      have hstep : reclassify (reclassify_loop n 0 toks) j = reclassify_loop n 0 toks := by
        rw [reclassify_eq, hin j (by omega) (by omega), nextType_idem,
          ← hin j (by omega) (by omega), tokAt_cast, setType_self]
      have hloop : reclassify_loop (k + 1) j (reclassify_loop n 0 toks) =
          reclassify_loop k (j + 1) (reclassify (reclassify_loop n 0 toks) j) := rfl
      rw [hloop, hstep]
      exact ih (j + 1) (by omega)
  refine ⟨hfix n 0 (by omega), hlen, ?_⟩
  apply List.ext_getElem?
  intro k
  simp only [List.getElem?_map]
  by_cases hk : k < toks.length
  · have h1 := hstr k
    rw [List.getD_eq_getElem _ _ hk, List.getD_eq_getElem _ _ (by omega)] at h1
    rw [List.getElem?_eq_getElem hk, List.getElem?_eq_getElem (by omega)]
    simp only [Option.map_some', h1]
  · rw [List.getElem?_eq_none (by omega), List.getElem?_eq_none (by omega)]


/-! ### The main operator -/

/-- The value of `tmp` lies between 0 and 5. -/
theorem rank_bounds (ty : Int) : 0 ≤ rank ty ∧ rank ty ≤ 5 := by
  unfold rank
  split_ifs <;> decide

/-- On the operator types `tmp` is the precedence rank. -/
theorem rank_eq_precedence (ty : Int) (h : ty ∈ operatorKinds) : rank ty = precedence ty := by
  simp only [operatorKinds, List.mem_cons, List.mem_nil_iff, or_false] at h
  rcases h with h | h | h | h | h | h | h | h | h | h <;> subst h <;> decide

/-- On a token of the grammar `isOperator` tells the operator types. -/
theorem isOperator_iff (toks : List Token) (i : Int)
    (h : (tokAt toks i).type ∈ grammarKinds) :
    isOperator toks i = true ↔ (tokAt toks i).type ∈ operatorKinds := by
  unfold isOperator
  generalize (tokAt toks i).type = ty at h ⊢
  simp only [grammarKinds, operatorKinds, List.cons_append, List.nil_append, List.mem_cons,
    List.mem_nil_iff, or_false] at h
  rcases h with h | h | h | h | h | h | h | h | h | h | h | h | h | h | h <;> subst h <;>
    decide

/-- The depth of a list with one more type at its end. -/
theorem depth_snoc (tys : List Int) (ty : Int) :
    depth (tys ++ [ty]) =
      depth tys + (if ty = ord '(' then 1 else if ty = ord ')' then -1 else 0) := by
  induction tys with
  | nil =>
    have h0 : depth [] = 0 := rfl
    rw [List.nil_append, depth_cons, h0]
    ring
  | cons t tys ih =>
    rw [List.cons_append, depth_cons, depth_cons, ih]
    ring

/-- The types of a range, read at natural offsets from `p`. -/
theorem typesIn_eq (toks : List Token) (p q : Int) :
    typesIn toks p q =
      (List.range (q + 1 - p).toNat).map
        (fun k : Nat => (tokAt toks (p + (k : Int))).type) := by
  unfold typesIn
  generalize List.range (q + 1 - p).toNat = l
  induction l with
  | nil => rfl
  | cons a l ih =>
    rw [List.map_cons, ← ih]
    rfl

/-- The types of a range that is extended by one token at its end. -/
theorem typesIn_snoc (toks : List Token) (p i : Int) (h : p ≤ i) :
    typesIn toks p i = typesIn toks p (i - 1) ++ [(tokAt toks i).type] := by
  rw [typesIn_eq, typesIn_eq]
  have h1 : (i + 1 - p).toNat = (i - 1 + 1 - p).toNat + 1 := by omega
  rw [h1, List.range_succ, List.map_append, List.map_singleton]
  have h2 : p + (((i - 1 + 1 - p).toNat : Nat) : Int) = i := by omega
  rw [h2]

/-- The types of an empty range. -/
theorem typesIn_empty (toks : List Token) (p : Int) : typesIn toks p (p - 1) = [] := by
  rw [typesIn_eq]
  have h1 : (p - 1 + 1 - p).toNat = 0 := by omega
  rw [h1]
  rfl

/-- The loop of `get_main_op` keeps its invariant: started in a state that satisfies
it before index `i`, after `n` iterations the state satisfies it before `i + n`. -/
theorem main_op_loop_inv (toks : List Token) (p : Int) (n : Nat) :
    ∀ (i cur mi mi_pos : Int), p ≤ i → MainOpInv toks p i cur mi mi_pos →
      ∃ cur1 mi1, MainOpInv toks p (i + n) cur1 mi1 (main_op_loop toks n i cur mi mi_pos) := by
  induction n with
  | zero =>
    intro i cur mi mi_pos _ hinv
    refine ⟨cur, mi, ?_⟩
    simpa [main_op_loop] using hinv
  | succ n ih =>
    intro i cur mi mi_pos hpi hinv
    obtain ⟨hcur, hbest⟩ := hinv
    have hidx : i + ((n + 1 : Nat) : Int) = (i + 1) + (n : Int) := by push_cast; ring
    rw [hidx]
    have hcur1 : (if (tokAt toks i).type = ord '(' then cur + 1
        else if (tokAt toks i).type = ord ')' then cur - 1 else cur) =
        depth (typesIn toks p (i + 1 - 1)) := by
      have e : i + 1 - 1 = i := by ring
      rw [e, typesIn_snoc toks p i hpi, depth_snoc, hcur]
      split_ifs <;> ring
    have hkeep : ¬ candidate toks p i →
        MainOpInv toks p (i + 1) (if (tokAt toks i).type = ord '(' then cur + 1
          else if (tokAt toks i).type = ord ')' then cur - 1 else cur) mi mi_pos := by
      intro hnc
      refine ⟨hcur1, ?_⟩
      rcases hbest with ⟨hmi, hnone⟩ | ⟨h1, h2, h3, h4, h5⟩
      · left
        refine ⟨hmi, fun j hj1 hj2 => ?_⟩
        by_cases hji : j = i
        · rw [hji]; exact hnc
        · exact hnone j hj1 (by omega)
      · right
        refine ⟨h1, by omega, h3, h4, fun j hj1 hj2 hc => ?_⟩
        by_cases hji : j = i
        · rw [hji] at hc; exact absurd hc hnc
        · exact h5 j hj1 (by omega) hc
    have hdepth : depth (typesIn toks p i) =
        (if (tokAt toks i).type = ord '(' then cur + 1
          else if (tokAt toks i).type = ord ')' then cur - 1 else cur) := by
      rw [hcur1]
      congr 2
      ring
    by_cases hop : isOperator toks i = true
    · by_cases hzero : (if (tokAt toks i).type = ord '(' then cur + 1
          else if (tokAt toks i).type = ord ')' then cur - 1 else cur) = 0
      · have hcand : candidate toks p i := ⟨hop, by rw [hdepth, hzero]⟩
        by_cases hle : rank (tokAt toks i).type ≤ mi
        · have hstep : main_op_loop toks (n + 1) i cur mi mi_pos =
              main_op_loop toks n (i + 1) (if (tokAt toks i).type = ord '(' then cur + 1
                else if (tokAt toks i).type = ord ')' then cur - 1 else cur)
                (rank (tokAt toks i).type) i := by
            simp only [main_op_loop, hop, hzero, hle, Bool.not_true, ne_eq,
              not_true_eq_false, if_false, if_true, Bool.false_eq_true]
          rw [hstep]
          apply ih (i + 1) _ _ _ (by omega)
          refine ⟨hcur1, Or.inr ⟨hpi, by omega, hcand, rfl, fun j hj1 hj2 hc => ?_⟩⟩
          by_cases hji : j = i
          · rw [hji]
            exact ⟨le_refl _, fun _ => le_refl _⟩
          · rcases hbest with ⟨_, hnone⟩ | ⟨_, _, _, _, h5⟩
            · exact absurd hc (hnone j hj1 (by omega))
            · have := h5 j hj1 (by omega) hc
              exact ⟨by omega, fun _ => by omega⟩
        · have hstep : main_op_loop toks (n + 1) i cur mi mi_pos =
              main_op_loop toks n (i + 1) (if (tokAt toks i).type = ord '(' then cur + 1
                else if (tokAt toks i).type = ord ')' then cur - 1 else cur) mi mi_pos := by
            simp only [main_op_loop, hop, hzero, hle, Bool.not_true, ne_eq,
              not_true_eq_false, if_false, Bool.false_eq_true]
          rw [hstep]
          apply ih (i + 1) _ _ _ (by omega)
          refine ⟨hcur1, ?_⟩
          have hr := rank_bounds (tokAt toks i).type
          rcases hbest with ⟨hmi, _⟩ | ⟨h1, h2, h3, h4, h5⟩
          · omega
          · right
            refine ⟨h1, by omega, h3, h4, fun j hj1 hj2 hc => ?_⟩
            by_cases hji : j = i
            · rw [hji]
              exact ⟨by omega, fun h => by omega⟩
            · exact h5 j hj1 (by omega) hc
      · have hstep : main_op_loop toks (n + 1) i cur mi mi_pos =
            main_op_loop toks n (i + 1) (if (tokAt toks i).type = ord '(' then cur + 1
              else if (tokAt toks i).type = ord ')' then cur - 1 else cur) mi mi_pos := by
          simp only [main_op_loop, hop, hzero, Bool.not_true, ne_eq, not_false_eq_true,
            if_false, if_true, Bool.false_eq_true]
        rw [hstep]
        exact ih (i + 1) _ _ _ (by omega)
          (hkeep (fun hc => hzero (by rw [← hdepth]; exact hc.2)))
    · have hstep : main_op_loop toks (n + 1) i cur mi mi_pos =
          main_op_loop toks n (i + 1) (if (tokAt toks i).type = ord '(' then cur + 1
            else if (tokAt toks i).type = ord ')' then cur - 1 else cur) mi mi_pos := by
        have hop1 : isOperator toks i = false := by simpa using hop
        simp only [main_op_loop, hop1, Bool.not_false, if_true]
      rw [hstep]
      exact ih (i + 1) _ _ _ (by omega) (hkeep (fun hc => hop hc.1))

/-- What `get_main_op` returns on a range that holds a token passing the tests of lines
153-154: an index of the range whose token passes them, of least `tmp`, and the last
one with that `tmp`. -/
theorem get_main_op_spec (toks : List Token) (p q : Int)
    (hex : ∃ i, p ≤ i ∧ i ≤ q ∧ candidate toks p i) :
    p ≤ get_main_op toks p q ∧ get_main_op toks p q ≤ q ∧
    candidate toks p (get_main_op toks p q) ∧
    ∀ j, p ≤ j → j ≤ q → candidate toks p j →
      rank (tokAt toks (get_main_op toks p q)).type ≤ rank (tokAt toks j).type ∧
      (rank (tokAt toks j).type = rank (tokAt toks (get_main_op toks p q)).type →
        j ≤ get_main_op toks p q) := by
  obtain ⟨i0, hi1, hi2, hi3⟩ := hex
  have hinit : MainOpInv toks p p 0 100 0 := by
    refine ⟨?_, Or.inl ⟨rfl, fun j hj1 hj2 => ?_⟩⟩
    · rw [typesIn_empty]
      rfl
    · omega
  obtain ⟨cur1, mi1, hcur, hbest⟩ :=
    main_op_loop_inv toks p (q + 1 - p).toNat p 0 100 0 (le_refl p) hinit
  have hend : p + (((q + 1 - p).toNat : Nat) : Int) = q + 1 := by omega
  rw [hend] at hbest
  have hres : main_op_loop toks (q + 1 - p).toNat p 0 100 0 = get_main_op toks p q := rfl
  rw [hres] at hbest
  rcases hbest with ⟨_, hnone⟩ | ⟨h1, h2, h3, h4, h5⟩
  · exact absurd hi3 (hnone i0 hi1 (by omega))
  · refine ⟨h1, by omega, h3, fun j hj1 hj2 hj3 => ?_⟩
    have hj := h5 j hj1 (by omega) hj3
    rw [← h4] at hj
    exact hj

/-- C14: for every token array and range `[p, q]` all of whose tokens have types of the
grammar and which holds an operator at parenthesis depth 0, `get_main_op` returns an
index of the range whose token is an operator at depth 0, whose precedence rank is
the least among the operators at depth 0 of the range, and which is the greatest
index with that rank. -/
theorem get_main_op_rightmost_min (toks : List Token) (p q : Int) (_hp : 0 ≤ p)
    (hkinds : ∀ i, p ≤ i → i ≤ q → (tokAt toks i).type ∈ grammarKinds)
    (hex : ∃ i, p ≤ i ∧ i ≤ q ∧ depthZeroOp toks p i) :
    p ≤ get_main_op toks p q ∧ get_main_op toks p q ≤ q ∧
    depthZeroOp toks p (get_main_op toks p q) ∧
    ∀ j, p ≤ j → j ≤ q → depthZeroOp toks p j →
      precedence (tokAt toks (get_main_op toks p q)).type ≤ precedence (tokAt toks j).type ∧
      (precedence (tokAt toks j).type = precedence (tokAt toks (get_main_op toks p q)).type →
        j ≤ get_main_op toks p q) := by
  have hcand : ∀ j, p ≤ j → j ≤ q → (candidate toks p j ↔ depthZeroOp toks p j) := by
    intro j hj1 hj2
    unfold candidate depthZeroOp
    rw [isOperator_iff toks j (hkinds j hj1 hj2)]
  obtain ⟨i0, hi1, hi2, hi3⟩ := hex
  obtain ⟨h1, h2, h3, h4⟩ :=
    get_main_op_spec toks p q ⟨i0, hi1, hi2, (hcand i0 hi1 hi2).mpr hi3⟩
  have hdz := (hcand _ h1 h2).mp h3
  refine ⟨h1, h2, hdz, fun j hj1 hj2 hj3 => ?_⟩
  have hj := h4 j hj1 hj2 ((hcand j hj1 hj2).mpr hj3)
  rw [rank_eq_precedence _ hj3.1, rank_eq_precedence _ hdz.1] at hj
  exact hj

/-- C14 at the token stream of `1+2*3`: the main operator is the `+` at index 1. -/
theorem get_main_op_rightmost_min_witness :
    get_main_op stream_1_plus_2_times_3 0 4 = 1 ∧
    (0 ≤ get_main_op stream_1_plus_2_times_3 0 4 ∧
    get_main_op stream_1_plus_2_times_3 0 4 ≤ 4 ∧
    depthZeroOp stream_1_plus_2_times_3 0 (get_main_op stream_1_plus_2_times_3 0 4) ∧
    ∀ j, 0 ≤ j → j ≤ 4 → depthZeroOp stream_1_plus_2_times_3 0 j →
      precedence (tokAt stream_1_plus_2_times_3
          (get_main_op stream_1_plus_2_times_3 0 4)).type ≤
        precedence (tokAt stream_1_plus_2_times_3 j).type ∧
      (precedence (tokAt stream_1_plus_2_times_3 j).type =
          precedence (tokAt stream_1_plus_2_times_3
            (get_main_op stream_1_plus_2_times_3 0 4)).type →
        j ≤ get_main_op stream_1_plus_2_times_3 0 4)) :=
  ⟨by decide,
   get_main_op_rightmost_min stream_1_plus_2_times_3 0 4 (by decide)
    (by
      intro i h1 h2
      interval_cases i <;> decide)
    ⟨1, by decide, by decide, ⟨by decide, by decide⟩⟩⟩


/-! ### Binary operators -/

/-- On machine words the switch of `eval` computes the reference semantics, a zero
divisor giving the undefined division. -/
theorem binop_eq_applyOp (ty : Int) (a b : Nat) (hty : ty ∈ binaryKinds)
    (hb : b < WORD) :
    binop ty a b = (match applyOp ty a b with
      | some r => .ret r
      | none => .undef .divZero) := by
  have hW : WORD = 4294967296 := by decide
  simp only [binaryKinds, List.mem_cons, List.mem_nil_iff, or_false] at hty
  rcases hty with h | h | h | h | h | h | h | h <;> subst h
  · simp only [binop, applyOp, (by decide : ¬ TK_OR = ord '+'),
      (by decide : ¬ TK_OR = ord '-'), (by decide : ¬ TK_OR = ord '*'),
      (by decide : ¬ TK_OR = ord '/'), (by decide : ¬ TK_OR = TK_EQ),
      (by decide : ¬ TK_OR = TK_NEQ), (by decide : ¬ TK_OR = TK_AND), if_false, if_true]
    by_cases h1 : a = 0 <;> by_cases h2 : b = 0 <;> simp [h1, h2]
  · simp only [binop, applyOp, (by decide : ¬ TK_AND = ord '+'),
      (by decide : ¬ TK_AND = ord '-'), (by decide : ¬ TK_AND = ord '*'),
      (by decide : ¬ TK_AND = ord '/'), (by decide : ¬ TK_AND = TK_EQ),
      (by decide : ¬ TK_AND = TK_NEQ), if_false, if_true]
    by_cases h1 : a = 0 <;> by_cases h2 : b = 0 <;> simp [h1, h2]
  · simp only [binop, applyOp, (by decide : ¬ TK_EQ = ord '+'),
      (by decide : ¬ TK_EQ = ord '-'), (by decide : ¬ TK_EQ = ord '*'),
      (by decide : ¬ TK_EQ = ord '/'), if_false, if_true]
  · simp only [binop, applyOp, (by decide : ¬ TK_NEQ = ord '+'),
      (by decide : ¬ TK_NEQ = ord '-'), (by decide : ¬ TK_NEQ = ord '*'),
      (by decide : ¬ TK_NEQ = ord '/'), (by decide : ¬ TK_NEQ = TK_EQ), if_false, if_true]
    by_cases h1 : a = b <;> simp [h1]
  · simp only [binop, applyOp, if_true]
    rw [hW]
    refine congrArg Outcome.ret ?_
    omega
  · simp only [binop, applyOp, (by decide : ¬ ord '-' = ord '+'), if_false, if_true]
    rw [hW] at hb ⊢
    refine congrArg Outcome.ret ?_
    omega
  · simp only [binop, applyOp, (by decide : ¬ ord '*' = ord '+'),
      (by decide : ¬ ord '*' = ord '-'), if_false, if_true]
    rw [hW]
    refine congrArg Outcome.ret ?_
    have hc : ((a : Int) * (b : Int)) = ((a * b : Nat) : Int) := by push_cast; rfl
    rw [hc]
    generalize a * b = c
    omega
  · simp only [binop, applyOp, (by decide : ¬ ord '/' = ord '+'),
      (by decide : ¬ ord '/' = ord '-'), (by decide : ¬ ord '/' = ord '*'), if_false,
      if_true]
    by_cases h2 : b = 0 <;> simp [h2]

/-- The result of the reference semantics is a machine word. -/
theorem applyOp_lt (ty : Int) (a b r : Nat) (hty : ty ∈ binaryKinds)
    (ha : a < WORD) (hb : b < WORD) (h : applyOp ty a b = some r) : r < WORD := by
  have hW : WORD = 4294967296 := by decide
  have hbin := binop_eq_applyOp ty a b hty hb
  rw [h] at hbin
  simp only [binaryKinds, List.mem_cons, List.mem_nil_iff, or_false] at hty
  unfold binop at hbin
  split_ifs at hbin <;> cases hbin <;> first
    | exact Nat.mod_lt _ (by decide)
    | (rw [hW]; omega)
    | (exact lt_of_le_of_lt (Nat.div_le_self _ _) ha)

/-- A literal token is skipped by the loop of `get_main_op`. -/
theorem main_op_loop_literal (toks : List Token) (n : Nat) (i cur mi mi_pos : Int)
    (h : (tokAt toks i).type ∈ literalKinds) :
    main_op_loop toks (n + 1) i cur mi mi_pos = main_op_loop toks n (i + 1) cur mi mi_pos := by
  have hop : isOperator toks i = false := by
    unfold isOperator
    simp only [literalKinds, List.mem_cons, List.mem_nil_iff, or_false] at h
    rcases h with h | h | h <;> rw [h] <;> decide
  have hcur : (if (tokAt toks i).type = ord '(' then cur + 1
      else if (tokAt toks i).type = ord ')' then cur - 1 else cur) = cur := by
    simp only [literalKinds, List.mem_cons, List.mem_nil_iff, or_false] at h
    rcases h with h | h | h <;> rw [h] <;> simp only [(by decide : ¬ TK_NUM = ord '('),
      (by decide : ¬ TK_NUM = ord ')'), (by decide : ¬ TK_HEX = ord '('),
      (by decide : ¬ TK_HEX = ord ')'), (by decide : ¬ TK_REG = ord '('),
      (by decide : ¬ TK_REG = ord ')'), if_false]
  simp only [main_op_loop, hop, hcur, Bool.not_false, if_true]

/-- A binary operator met at depth 0 with `tmp <= mi` becomes the split point. -/
theorem main_op_loop_binary (toks : List Token) (n : Nat) (i mi mi_pos : Int)
    (h : (tokAt toks i).type ∈ binaryKinds) (hle : rank (tokAt toks i).type ≤ mi) :
    main_op_loop toks (n + 1) i 0 mi mi_pos =
      main_op_loop toks n (i + 1) 0 (rank (tokAt toks i).type) i := by
  have hop : isOperator toks i = true := by
    unfold isOperator
    simp only [binaryKinds, List.mem_cons, List.mem_nil_iff, or_false] at h
    rcases h with h | h | h | h | h | h | h | h <;> rw [h] <;> decide
  have hcur : (if (tokAt toks i).type = ord '(' then (0 : Int) + 1
      else if (tokAt toks i).type = ord ')' then (0 : Int) - 1 else 0) = 0 := by
    simp only [binaryKinds, List.mem_cons, List.mem_nil_iff, or_false] at h
    rcases h with h | h | h | h | h | h | h | h <;> rw [h] <;> decide
  simp only [main_op_loop, hop, hcur, hle, Bool.not_true, ne_eq, not_true_eq_false,
    if_false, if_true, Bool.false_eq_true]

/-- A binary operator is an operator, and is neither negate nor dereference. -/
theorem binary_kind_facts (ty : Int) (h : ty ∈ binaryKinds) :
    ty ∈ operatorKinds ∧ ty ≠ TK_NEG ∧ ty ≠ TK_DREF := by
  simp only [binaryKinds, List.mem_cons, List.mem_nil_iff, or_false] at h
  rcases h with h | h | h | h | h | h | h | h <;> subst h <;> decide

/-- The general case of `eval` for a binary main operator whose two operands come to
values. -/
theorem eval_binary_step (m : Machine) (toks : List Token) (fuel : Nat) (p q op : Int)
    (val1 val2 : Nat) (hp : 0 ≤ p) (hpq : p < q) (hq : q < toks.length)
    (hpar : check_parentheses toks p q = false) (hop : get_main_op toks p q = op)
    (hty : (tokAt toks op).type ∈ binaryKinds)
    (h1 : eval m toks fuel p (op - 1) = some (.ret val1))
    (h2 : eval m toks fuel (op + 1) q = some (.ret val2)) :
    eval m toks (fuel + 1) p q = some (binop (tokAt toks op).type val1 val2) := by
  have e1 : ¬ p > q := by omega
  have e2 : ¬ (p < 0 ∨ (toks.length : Int) ≤ q) := by omega
  have e3 : ¬ p = q := by omega
  obtain ⟨_, n1, n2⟩ := binary_kind_facts _ hty
  simp only [eval, e1, e2, e3, hpar, hop, h1, h2, n1, n2, if_false]
  rfl

/-- The first token of a segment. -/
theorem segTok_head {toks : List Token} {i : Int} {w : Token} {W : List Token}
    (h : SegTok toks i (w :: W)) : tokAt toks i = w := by
  have h0 := h 0 (by simp)
  simpa using h0

/-- The rest of a segment. -/
theorem segTok_tail {toks : List Token} {i : Int} {w : Token} {W : List Token}
    (h : SegTok toks i (w :: W)) : SegTok toks (i + 1) W := by
  intro j hj
  have h1 := h (j + 1) (by simpa using hj)
  have e : i + ((j + 1 : Nat) : Int) = i + 1 + (j : Int) := by push_cast; ring
  rw [e] at h1
  simpa using h1

/-- The left part of a segment. -/
theorem segTok_left {toks : List Token} {i : Int} {U V : List Token}
    (h : SegTok toks i (U ++ V)) : SegTok toks i U := by
  intro j hj
  have h1 := h j (by rw [List.length_append]; omega)
  rw [h1, List.getD_append _ _ _ _ hj]

/-- The right part of a segment. -/
theorem segTok_right {toks : List Token} {i : Int} {U V : List Token}
    (h : SegTok toks i (U ++ V)) : SegTok toks (i + (U.length : Int)) V := by
  intro j hj
  have h1 := h (U.length + j) (by rw [List.length_append]; omega)
  have e : i + ((U.length + j : Nat) : Int) = i + (U.length : Int) + (j : Int) := by
    push_cast; ring
  rw [e] at h1
  rw [h1, List.getD_append_right _ _ _ _ (by omega)]
  congr 1
  omega

/-- A list of tokens followed by anything holds itself from index 0 on. -/
theorem segTok_initial (W post : List Token) : SegTok (W ++ post) 0 W := by
  intro j hj
  unfold tokAt
  have e : ((0 : Int) + (j : Int)).toNat = j := by omega
  rw [e, List.getD_append _ _ _ _ hj]

/-- The types of a range that holds a segment. -/
theorem typesIn_of_segTok {toks : List Token} {p q : Int} {W : List Token}
    (h : SegTok toks p W) (hq : q = p + (W.length : Int) - 1) :
    typesIn toks p q = W.map (fun t => t.type) := by
  rw [typesIn_eq]
  have hn : (q + 1 - p).toNat = W.length := by omega
  rw [hn]
  apply List.ext_getElem
  · simp
  · intro k h1 h2
    simp only [List.length_map, List.length_range] at h1
    simp only [List.getElem_map, List.getElem_range]
    rw [h k h1, List.getD_eq_getElem _ _ h1]

/-- The depth of two lists one after the other. -/
theorem depth_append (X Y : List Int) : depth (X ++ Y) = depth X + depth Y := by
  simp only [depth, List.count_append]
  push_cast
  ring

/-- The update of `cur` in the loop of `get_main_op`. -/
theorem cur_step (ty cur : Int) :
    (if ty = ord '(' then cur + 1 else if ty = ord ')' then cur - 1 else cur) =
      cur + parenStep ty := by
  unfold parenStep
  split_ifs <;> ring

/-- The depth of a list, one type at a time. -/
theorem depth_cons_step (ty : Int) (tys : List Int) :
    depth (ty :: tys) = parenStep ty + depth tys := depth_cons ty tys

/-- A token met at a depth other than 0 changes neither `mi` nor `mi_pos`. -/
theorem main_op_loop_nonzero (toks : List Token) (n : Nat) (i cur mi mi_pos : Int)
    (h : cur + parenStep (tokAt toks i).type ≠ 0) :
    main_op_loop toks (n + 1) i cur mi mi_pos =
      main_op_loop toks n (i + 1) (cur + parenStep (tokAt toks i).type) mi mi_pos := by
  have h1 : (if (tokAt toks i).type = ord '(' then cur + 1
      else if (tokAt toks i).type = ord ')' then cur - 1 else cur) ≠ 0 := by
    rw [cur_step]; exact h
  by_cases hop : isOperator toks i = true
  · simp only [main_op_loop, hop, Bool.not_true, ne_eq, if_false, Bool.false_eq_true,
      cur_step]
    rw [if_pos h]
  · have hop1 : isOperator toks i = false := by simpa using hop
    simp only [main_op_loop, hop1, Bool.not_false, if_true, cur_step]

/-- A token that is no operator changes neither `mi` nor `mi_pos`. -/
theorem main_op_loop_operand (toks : List Token) (n : Nat) (i cur mi mi_pos : Int)
    (h : isOperator toks i = false) :
    main_op_loop toks (n + 1) i cur mi mi_pos =
      main_op_loop toks n (i + 1) (cur + parenStep (tokAt toks i).type) mi mi_pos := by
  simp only [main_op_loop, h, Bool.not_false, if_true, cur_step]

/-- A segment inside which the depth never is 0 changes neither `mi` nor `mi_pos`. -/
theorem main_op_loop_positive (toks : List Token) (k : Nat) (mi mi_pos : Int) :
    ∀ (X : List Token) (i c : Int), SegTok toks i X →
      (∀ j, 1 ≤ j → j ≤ X.length → 1 ≤ c + depth ((X.take j).map (fun t => t.type))) →
      main_op_loop toks (X.length + k) i c mi mi_pos =
        main_op_loop toks k (i + (X.length : Int))
          (c + depth (X.map (fun t => t.type))) mi mi_pos := by
  intro X
  induction X with
  | nil =>
    intro i c _ _
    have h0 : depth ([] : List Int) = 0 := rfl
    simp only [List.length_nil, Nat.zero_add, List.map_nil, h0]
    congr 1 <;> simp
  | cons x X ih =>
    intro i c hseg hpos
    have hx := segTok_head hseg
    have h1 := hpos 1 (by omega) (by simp)
    simp only [List.take_succ_cons, List.take_zero, List.map_cons, List.map_nil,
      depth_cons_step] at h1
    have hd0 : depth ([] : List Int) = 0 := rfl
    rw [hd0] at h1
    have hlen : (x :: X).length + k = (X.length + k) + 1 := by
      simp only [List.length_cons]; omega
    rw [hlen, main_op_loop_nonzero toks _ i c mi mi_pos (by rw [hx]; omega), hx]
    rw [ih (i + 1) (c + parenStep x.type) (segTok_tail hseg)]
    · simp only [List.map_cons, depth_cons_step, List.length_cons]
      congr 1
      · push_cast; ring
      · ring
    · intro j hj1 hj2
      have h2 := hpos (j + 1) (by omega) (by simp only [List.length_cons]; omega)
      simp only [List.take_succ_cons, List.map_cons, depth_cons_step] at h2
      omega


/-- A type that is no parenthesis is balanced on its own. -/
theorem balanced_single (ty : Int) (h1 : ty ≠ ord '(') (h2 : ty ≠ ord ')') :
    balanced [ty] := by
  have hd : depth [ty] = 0 := by
    rw [depth_cons]
    simp only [h1, h2, if_false]
    rfl
  refine ⟨fun k hk => ?_, hd⟩
  have hk1 : k ≤ 1 := hk
  interval_cases k
  · exact le_refl _
  · rw [List.take_succ_cons, List.take_zero, hd]

/-- Two balanced lists one after the other are balanced. -/
theorem balanced_append (X Y : List Int) (hX : balanced X) (hY : balanced Y) :
    balanced (X ++ Y) := by
  refine ⟨fun k _ => ?_, by rw [depth_append, hX.2, hY.2]; rfl⟩
  rw [List.take_append_eq_append_take, depth_append]
  by_cases hk : k ≤ X.length
  · have h1 := hX.1 k hk
    have h2 := hY.1 (k - X.length) (by omega)
    omega
  · have h1 := hX.1 X.length (le_refl _)
    rw [List.take_of_length_le (by omega : X.length ≤ k)]
    rw [List.take_length] at h1
    by_cases hk2 : k - X.length ≤ Y.length
    · have h2 := hY.1 (k - X.length) hk2
      omega
    · rw [List.take_of_length_le (by omega), hX.2, hY.2]
      decide

/-- Inside a pair of parentheses around a balanced list the depth is at least 1. -/
theorem inner_positive (T : List Int) (hT : balanced T) (j : Nat) (hj1 : 1 ≤ j)
    (hj2 : j ≤ T.length + 1) : 1 ≤ depth ((ord '(' :: T).take j) := by
  obtain ⟨k, rfl⟩ : ∃ k, j = k + 1 := ⟨j - 1, by omega⟩
  rw [List.take_succ_cons, depth_cons]
  have h := hT.1 k (by omega)
  simp only [if_true]
  omega

/-- A balanced list between parentheses is balanced. -/
theorem balanced_paren (T : List Int) (hT : balanced T) :
    balanced (ord '(' :: T ++ [ord ')']) := by
  have hne : ¬ ord ')' = ord '(' := by decide
  have hd : depth (ord '(' :: T ++ [ord ')']) = 0 := by
    rw [depth_append, depth_cons, depth_cons, hT.2]
    simp only [if_true, hne, if_false]
    rfl
  refine ⟨fun k hk => ?_, hd⟩
  simp only [List.length_cons, List.length_append, List.length_nil] at hk
  by_cases hk0 : k = 0
  · subst hk0
    exact le_refl _
  · by_cases hk1 : k ≤ T.length + 1
    · have h := inner_positive T hT k (by omega) hk1
      rw [List.take_append_eq_append_take, depth_append]
      have h2 : k - (ord '(' :: T).length = 0 := by simp only [List.length_cons]; omega
      rw [h2, List.take_zero]
      have hd0 : depth ([] : List Int) = 0 := rfl
      omega
    · rw [List.take_of_length_le (by
        simp only [List.length_cons, List.length_append, List.length_nil]; omega), hd]

/-- The types of a wrapped operand. -/
theorem wrap_types_bin (op : Int) (l r : Tree) (ts : List Token) :
    (wrap (.bin op l r) ts).map (fun t => t.type) =
      ord '(' :: ts.map (fun t => t.type) ++ [ord ')'] := by
  simp only [wrap, List.map_cons, List.map_append, List.map_nil]
  rfl

/-- The rendering of a well-formed tree is balanced, bare and wrapped. -/
theorem render_balanced (e : Tree) (h : e.wellFormed) :
    balanced (e.render.map (fun t => t.type)) ∧
    balanced ((wrap e e.render).map (fun t => t.type)) := by
  induction e with
  | lit ds =>
    have hb : balanced ((Tree.lit ds).render.map (fun t => t.type)) :=
      balanced_single TK_NUM (by decide) (by decide)
    exact ⟨hb, hb⟩
  | bin op l r ihl ihr =>
    obtain ⟨hop, hl, hr⟩ := h
    have hopn : op ≠ ord '(' ∧ op ≠ ord ')' := by
      simp only [binaryKinds, List.mem_cons, List.mem_nil_iff, or_false] at hop
      rcases hop with h | h | h | h | h | h | h | h <;> subst h <;> decide
    have hb : balanced ((Tree.bin op l r).render.map (fun t => t.type)) := by
      simp only [Tree.render, List.map_append, List.map_cons, List.map_nil]
      exact balanced_append _ _
        (balanced_append _ _ (ihl hl).2 (balanced_single op hopn.1 hopn.2)) (ihr hr).2
    refine ⟨hb, ?_⟩
    rw [wrap_types_bin]
    exact balanced_paren _ hb

/-- The loop of `get_main_op`, at depth 0, passes over a rendered operand without
changing `mi` or `mi_pos`, and is at depth 0 after it. -/
theorem main_op_loop_operand_seg (toks : List Token) (e : Tree) (h : e.wellFormed)
    (k : Nat) (i mi mi_pos : Int) (hseg : SegTok toks i (wrap e e.render)) :
    main_op_loop toks ((wrap e e.render).length + k) i 0 mi mi_pos =
      main_op_loop toks k (i + ((wrap e e.render).length : Int)) 0 mi mi_pos := by
  cases e with
  | lit ds =>
    have hx : tokAt toks i = ⟨TK_NUM, strBuf ds⟩ := segTok_head hseg
    have hlen : (wrap (Tree.lit ds) (Tree.lit ds).render).length = 1 := rfl
    rw [hlen, Nat.add_comm 1 k,
      main_op_loop_literal toks k i 0 mi mi_pos (by rw [hx]; exact List.mem_cons_self _ _)]
    rfl
  | bin op l r =>
    have hbal := (render_balanced _ h).1
    have hw : wrap (Tree.bin op l r) (Tree.bin op l r).render =
        (token (ord '(') "(" :: (Tree.bin op l r).render) ++ [token (ord ')') ")"] := rfl
    rw [hw] at hseg ⊢
    have hlen : ((token (ord '(') "(" :: (Tree.bin op l r).render) ++
        [token (ord ')') ")"]).length + k =
        (token (ord '(') "(" :: (Tree.bin op l r).render).length + (k + 1) := by
      simp only [List.length_append, List.length_cons, List.length_nil]
      omega
    rw [hlen, main_op_loop_positive toks (k + 1) mi mi_pos _ i 0 (segTok_left hseg)]
    · have hlast : tokAt toks (i + ((token (ord '(') "(" ::
          (Tree.bin op l r).render).length : Int)) = token (ord ')') ")" :=
        segTok_head (segTok_right hseg)
      have hop : isOperator toks (i + ((token (ord '(') "(" ::
          (Tree.bin op l r).render).length : Int)) = false := by
        unfold isOperator
        rw [hlast]
        decide
      rw [main_op_loop_operand toks k _ _ mi mi_pos hop, hlast]
      have hd : (0 : Int) + depth ((token (ord '(') "(" ::
          (Tree.bin op l r).render).map (fun t => t.type)) +
          parenStep (token (ord ')') ")").type = 0 := by
        rw [List.map_cons, depth_cons_step, hbal.2]
        decide
      rw [hd]
      congr 1
      simp only [List.length_append, List.length_cons, List.length_nil]
      push_cast
      ring
    · intro j hj1 hj2
      have := inner_positive _ hbal j hj1 (by simpa using hj2)
      have e : (token (ord '(') "(" :: (Tree.bin op l r).render).map (fun t => t.type) =
          ord '(' :: (Tree.bin op l r).render.map (fun t => t.type) := rfl
      rw [List.map_take, e]
      omega


/-- The main operator of a rendered binary tree is its root operator. -/
theorem get_main_op_render (toks : List Token) (op : Int) (l r : Tree)
    (h : (Tree.bin op l r).wellFormed) (p q : Int)
    (hseg : SegTok toks p (Tree.bin op l r).render)
    (hq : q = p + ((Tree.bin op l r).render.length : Int) - 1) :
    get_main_op toks p q = p + ((wrap l l.render).length : Int) := by
  obtain ⟨hop, hl, hr⟩ := h
  have hrender : (Tree.bin op l r).render =
      wrap l l.render ++ [opToken op] ++ wrap r r.render := rfl
  rw [hrender] at hseg hq
  have hsl : SegTok toks p (wrap l l.render) := segTok_left (segTok_left hseg)
  have hso : tokAt toks (p + ((wrap l l.render).length : Int)) = opToken op :=
    segTok_head (segTok_right (segTok_left hseg))
  have hsr : SegTok toks (p + ((wrap l l.render).length : Int) + 1) (wrap r r.render) := by
    have := segTok_right hseg
    simp only [List.length_append, List.length_cons, List.length_nil] at this
    have e : p + (((wrap l l.render).length + (0 + 1) : Nat) : Int) =
        p + ((wrap l l.render).length : Int) + 1 := by push_cast; ring
    rw [e] at this
    exact this
  have hn : (q + 1 - p).toNat =
      (wrap l l.render).length + (((wrap r r.render).length + 0) + 1) := by
    rw [hq]
    simp only [List.length_append, List.length_cons, List.length_nil]
    omega
  have hoty : (opToken op).type = op := rfl
  have hr100 : rank op ≤ 100 := by
    have := rank_bounds op
    omega
  have hskip := main_op_loop_operand_seg toks r hr 0
    (p + ((wrap l l.render).length : Int) + 1)
    (rank (tokAt toks (p + ((wrap l l.render).length : Int))).type)
    (p + ((wrap l l.render).length : Int)) hsr
  rw [Nat.add_zero] at hskip
  unfold get_main_op
  rw [hn, main_op_loop_operand_seg toks l hl _ p 100 0 hsl,
    main_op_loop_binary toks _ _ 100 0 (by rw [hso, hoty]; exact hop)
      (by rw [hso, hoty]; exact hr100), hskip]
  rfl

/-- On a range whose first token is `(`, whose last token is `)` and whose interior is
balanced, `check_parentheses` is true. -/
theorem check_parentheses_true (toks : List Token) (p q : Int)
    (hopen : (tokAt toks p).type = ord '(') (hclose : (tokAt toks q).type = ord ')')
    (hbal : balanced (typesIn toks (p + 1) (q - 1))) :
    check_parentheses toks p q = true := by
  have hloop := paren_loop_of_nonneg (typesIn toks (p + 1) (q - 1)) 0
    (fun k hk => by simpa using hbal.1 k hk)
  simp only [check_parentheses, hopen, hclose, hloop, hbal.2]
  simp

/-- The loop of `check_parentheses` runs through a balanced list and goes on with the
rest at the same count. -/
theorem paren_loop_append (X Y : List Int) :
    ∀ tot : Int, (∀ k, k ≤ X.length → 0 ≤ tot + depth (X.take k)) →
      paren_loop (X ++ Y) tot = paren_loop Y (tot + depth X) := by
  induction X with
  | nil =>
    intro tot _
    have h0 : depth ([] : List Int) = 0 := rfl
    simp [h0]
  | cons ty X ih =>
    intro tot h
    have h1 := h 1 (by simp)
    simp only [List.take_succ_cons, List.take_zero, depth_cons_step] at h1
    have hd0 : depth ([] : List Int) = 0 := rfl
    rw [hd0] at h1
    have hrest : ∀ k, k ≤ X.length → 0 ≤ (tot + parenStep ty) + depth (X.take k) := by
      intro k hk
      have := h (k + 1) (by simpa using hk)
      simp only [List.take_succ_cons, depth_cons_step] at this
      omega
    have hstep : paren_loop (ty :: X ++ Y) tot = paren_loop (X ++ Y) (tot + parenStep ty) := by
      have hn : ¬ tot + parenStep ty < 0 := by omega
      rw [List.cons_append]
      simp only [paren_loop, cur_step, hn, if_false]
    rw [hstep, ih _ hrest, depth_cons_step]
    congr 1
    ring

/-- The rendering of a binary tree is no matching outer pair. -/
theorem check_parentheses_render (toks : List Token) (op : Int) (l r : Tree)
    (h : (Tree.bin op l r).wellFormed) (p q : Int)
    (hseg : SegTok toks p (Tree.bin op l r).render)
    (hq : q = p + ((Tree.bin op l r).render.length : Int) - 1) :
    check_parentheses toks p q = false := by
  obtain ⟨hop, hl, hr⟩ := h
  have hrender : (Tree.bin op l r).render =
      wrap l l.render ++ [opToken op] ++ wrap r r.render := rfl
  rw [hrender] at hseg hq
  cases l with
  | lit ds =>
    have h0 : tokAt toks p = ⟨TK_NUM, strBuf ds⟩ :=
      segTok_head (segTok_left (segTok_left hseg))
    unfold check_parentheses
    rw [if_pos (Or.inl (by rw [h0]; show TK_NUM ≠ ord '('; decide))]
  | bin o1 l1 r1 =>
    cases r with
    | lit ds =>
      have hlast := segTok_head (segTok_right hseg)
      have hidx : p + (((wrap (Tree.bin o1 l1 r1) (Tree.bin o1 l1 r1).render ++
          [opToken op]).length : Nat) : Int) = q := by
        rw [hq]
        simp only [wrap, Tree.render, List.length_append, List.length_cons, List.length_nil]
        push_cast
        ring
      rw [hidx] at hlast
      unfold check_parentheses
      rw [if_pos (Or.inr (by rw [hlast]; show TK_NUM ≠ ord ')'; decide))]
    | bin o2 l2 r2 =>
      have hshape : wrap (Tree.bin o1 l1 r1) (Tree.bin o1 l1 r1).render ++ [opToken op] ++
          wrap (Tree.bin o2 l2 r2) (Tree.bin o2 l2 r2).render =
          token (ord '(') "(" :: (((Tree.bin o1 l1 r1).render ++
            (token (ord ')') ")" :: opToken op :: token (ord '(') "(" ::
              (Tree.bin o2 l2 r2).render)) ++ [token (ord ')') ")"]) := by
        simp only [wrap, List.cons_append, List.append_assoc, List.nil_append]
      rw [hshape] at hseg hq
      have hin := segTok_left (segTok_tail hseg)
      have hty := @typesIn_of_segTok _ _ (q - 1) _ hin (by
        rw [hq]
        simp only [List.length_append, List.length_cons, List.length_nil]
        push_cast
        ring)
      have hbal := (render_balanced _ hl).1
      unfold check_parentheses
      split
      · rfl
      · rw [hty, List.map_append,
          paren_loop_append _ _ 0 (fun k hk => by simpa using hbal.1 k hk), hbal.2]
        rfl


/-- The text of an array that holds at most 31 characters, none of them NUL, before
its NUL bytes. -/
theorem cstr_strBuf (ds : List Char) (hlen : ds.length ≤ 31) (hnz : ∀ c ∈ ds, c ≠ NUL) :
    cstr (strBuf ds) = ds := by
  unfold cstr strBuf
  have hrep : List.replicate (STR_SIZE - ds.length) NUL =
      NUL :: List.replicate (STR_SIZE - ds.length - 1) NUL := by
    have : STR_SIZE - ds.length = (STR_SIZE - ds.length - 1) + 1 := by
      have : STR_SIZE = 32 := rfl
      omega
    rw [this, List.replicate_succ]
    simp
  rw [hrep]
  generalize List.replicate (STR_SIZE - ds.length - 1) NUL = rest
  clear hrep hlen
  induction ds with
  | nil => simp [List.takeWhile]
  | cons d ds ih =>
    have hd : (d != NUL) = true := by simpa using hnz d (by simp)
    simp only [List.cons_append, List.takeWhile_cons, hd, if_true]
    rw [ih (fun c hc => hnz c (List.mem_cons_of_mem d hc))]

/-- The conversion `sscanf(.., "%d", ..)` of a non-empty text of decimal digits. -/
theorem sscanf_d_digits (ds : List Char) (hne : ds ≠ []) (hall : ∀ c ∈ ds, c ∈ decDigits) :
    sscanf_d ds = some (toWord false (decVal ds)) := by
  have htake : List.takeWhile (inRanges digit) ds = ds := by
    rw [List.takeWhile_eq_self_iff]
    intro c hc
    exact (digitVal_dec c (hall c hc)).2
  have hval : digitsVal 10 ds = decVal ds := by
    rw [digitsVal_eq_ofDigits, decVal]
    congr 1
    apply List.map_congr_left
    intro c hc
    exact (digitVal_dec c (hall c (List.mem_reverse.mp hc))).1
  obtain ⟨d, t, rfl⟩ : ∃ d t, ds = d :: t := by
    cases ds with
    | nil => exact absurd rfl hne
    | cons d t => exact ⟨d, t, rfl⟩
  have hd := hall d (by simp)
  have hsp : List.dropWhile isspace (d :: t) = d :: t := by
    simp only [decDigits, List.mem_cons, List.mem_nil_iff, or_false] at hd
    rcases hd with h | h | h | h | h | h | h | h | h | h <;> subst h <;>
      exact List.dropWhile_cons_of_neg (by decide)
  have hsign : takeSign (d :: t) = (false, d :: t) := by
    simp only [decDigits, List.mem_cons, List.mem_nil_iff, or_false] at hd
    rcases hd with h | h | h | h | h | h | h | h | h | h <;> subst h <;> rfl
  simp only [sscanf_d, hsp, hsign, htake, hval, List.isEmpty_cons, Bool.false_eq_true,
    if_false]

/-- The singleton case of `eval` on the token of a well-formed decimal literal. -/
theorem eval_single_lit (m : Machine) (ds : List Char) (h : (Tree.lit ds).wellFormed) :
    eval_single m ⟨TK_NUM, strBuf ds⟩ = .ret (decVal ds) := by
  obtain ⟨hne, hall, hlen, hfit⟩ := h
  have hnz : ∀ c ∈ ds, c ≠ NUL := by
    intro c hc
    have := hall c hc
    simp only [decDigits, List.mem_cons, List.mem_nil_iff, or_false] at this
    rcases this with h | h | h | h | h | h | h | h | h | h <;> subst h <;> decide
  have hw : toWord false (decVal ds) = decVal ds := by
    unfold toWord
    rw [if_neg (by decide), Nat.min_eq_left (by omega)]
    exact Nat.mod_eq_of_lt hfit
  simp only [eval_single, if_true, cstr_strBuf ds hlen hnz, sscanf_d_digits ds hne hall, hw]

/-- A matching outer pair is stripped. -/
theorem eval_paren_step (m : Machine) (toks : List Token) (fuel : Nat) (p q : Int)
    (hp : 0 ≤ p) (hpq : p < q) (hq : q < toks.length)
    (hpar : check_parentheses toks p q = true) :
    eval m toks (fuel + 1) p q = eval m toks fuel (p + 1) (q - 1) := by
  have e1 : ¬ p > q := by omega
  have e2 : ¬ (p < 0 ∨ (toks.length : Int) ≤ q) := by omega
  have e3 : ¬ p = q := by omega
  simp only [eval, e1, e2, e3, hpar, if_true, if_false]

/-- A rendering has at least one token. -/
theorem render_length_pos (e : Tree) : 1 ≤ e.render.length := by
  cases e with
  | lit ds => simp [Tree.render]
  | bin op l r =>
    simp only [Tree.render, List.length_append, List.length_cons, List.length_nil]
    omega

/-- An operand as rendered evaluates to what its bare rendering evaluates to, with one
more unit of fuel. -/
theorem eval_operand (m : Machine) (toks : List Token) (e : Tree) (h : e.wellFormed)
    (v : Nat)
    (hih : ∀ (p : Int) (fuel : Nat), 0 ≤ p → SegTok toks p e.render →
      p + (e.render.length : Int) ≤ toks.length → e.fuel ≤ fuel →
      eval m toks fuel p (p + (e.render.length : Int) - 1) = some (.ret v))
    (p : Int) (fuel : Nat) (hp : 0 ≤ p) (hseg : SegTok toks p (wrap e e.render))
    (hb : p + ((wrap e e.render).length : Int) ≤ toks.length) (hf : e.fuel + 1 ≤ fuel) :
    eval m toks fuel p (p + ((wrap e e.render).length : Int) - 1) = some (.ret v) := by
  cases e with
  | lit ds => exact hih p fuel hp hseg hb (by omega)
  | bin op l r =>
    have hw : wrap (Tree.bin op l r) (Tree.bin op l r).render =
        (token (ord '(') "(" :: (Tree.bin op l r).render) ++ [token (ord ')') ")"] := rfl
    rw [hw] at hseg hb ⊢
    obtain ⟨f, rfl⟩ : ∃ f, fuel = f + 1 := ⟨fuel - 1, by omega⟩
    have hpos := render_length_pos (Tree.bin op l r)
    have hlen : (((token (ord '(') "(" :: (Tree.bin op l r).render) ++
        [token (ord ')') ")"]).length : Int) = ((Tree.bin op l r).render.length : Int) + 2 := by
      simp only [List.length_append, List.length_cons, List.length_nil]
      push_cast
      ring
    rw [hlen] at hb ⊢
    have hopen : tokAt toks p = token (ord '(') "(" := segTok_head (segTok_left hseg)
    have hclose : tokAt toks (p + ((Tree.bin op l r).render.length : Int) + 2 - 1) =
        token (ord ')') ")" := by
      have := segTok_head (segTok_right hseg)
      simp only [List.length_cons] at this
      have e : p + (((Tree.bin op l r).render.length + 1 : Nat) : Int) =
          p + ((Tree.bin op l r).render.length : Int) + 2 - 1 := by push_cast; ring
      rw [e] at this
      exact this
    have hin : SegTok toks (p + 1) (Tree.bin op l r).render :=
      segTok_tail (segTok_left hseg)
    have hty := @typesIn_of_segTok _ _
      (p + ((Tree.bin op l r).render.length : Int) + 2 - 1 - 1) _ hin (by ring)
    have hcp : check_parentheses toks p
        (p + ((Tree.bin op l r).render.length : Int) + 2 - 1) = true :=
      check_parentheses_true toks _ _ (by rw [hopen]; rfl) (by rw [hclose]; rfl)
        (by rw [hty]; exact (render_balanced _ h).1)
    have e1 : p + ((Tree.bin op l r).render.length : Int) + 2 - 1 =
        p + (((Tree.bin op l r).render.length : Int) + 2) - 1 := by ring
    rw [← e1, eval_paren_step m toks f p _ hp (by omega) (by omega) hcp]
    have e2 : p + ((Tree.bin op l r).render.length : Int) + 2 - 1 - 1 =
        (p + 1) + ((Tree.bin op l r).render.length : Int) - 1 := by ring
    rw [e2]
    exact hih (p + 1) f (by omega) hin (by omega) (by omega)

/-- The rendering of a well-formed tree that has a value evaluates to that value, at
any place of the array, with the fuel of the tree or more. -/
theorem eval_render (m : Machine) (toks : List Token) :
    ∀ (e : Tree), e.wellFormed → ∀ v, e.value = some v →
      v < WORD ∧
      ∀ (p : Int) (fuel : Nat), 0 ≤ p → SegTok toks p e.render →
        p + (e.render.length : Int) ≤ toks.length → e.fuel ≤ fuel →
        eval m toks fuel p (p + (e.render.length : Int) - 1) = some (.ret v) := by
  intro e
  induction e with
  | lit ds =>
    intro h v hv
    have hv1 : v = decVal ds := by
      simp only [Tree.value, Option.some.injEq] at hv
      exact hv.symm
    subst hv1
    refine ⟨h.2.2.2, fun p fuel hp hseg hb hf => ?_⟩
    obtain ⟨f, rfl⟩ : ∃ f, fuel = f + 1 := ⟨fuel - 1, by
      simp only [Tree.fuel] at hf; omega⟩
    have hx : tokAt toks p = ⟨TK_NUM, strBuf ds⟩ := segTok_head hseg
    have hlen : ((Tree.lit ds).render.length : Int) = 1 := rfl
    rw [hlen] at hb ⊢
    have e : p + 1 - 1 = p := by ring
    rw [e, eval_at_single m toks f p hp (by omega), hx, eval_single_lit m ds h]
  | bin op l r ihl ihr =>
    intro h v hv
    obtain ⟨hop, hl, hr⟩ := h
    have hwf : (Tree.bin op l r).wellFormed := ⟨hop, hl, hr⟩
    simp only [Tree.value] at hv
    cases hlv : l.value with
    | none => rw [hlv] at hv; cases hv
    | some a =>
      cases hrv : r.value with
      | none => rw [hlv, hrv] at hv; cases hv
      | some b =>
        rw [hlv, hrv] at hv
        simp only [] at hv
        obtain ⟨ha, ihl1⟩ := ihl hl a hlv
        obtain ⟨hb, ihr1⟩ := ihr hr b hrv
        refine ⟨applyOp_lt op a b v hop ha hb hv, fun p fuel hp hseg hbd hf => ?_⟩
        obtain ⟨f, rfl⟩ : ∃ f, fuel = f + 1 := ⟨fuel - 1, by
          simp only [Tree.fuel] at hf; omega⟩
        have hfl : l.fuel + 1 ≤ f := by
          simp only [Tree.fuel] at hf
          have := Nat.le_max_left l.fuel r.fuel
          omega
        have hfr : r.fuel + 1 ≤ f := by
          simp only [Tree.fuel] at hf
          have := Nat.le_max_right l.fuel r.fuel
          omega
        have hrender : (Tree.bin op l r).render =
            wrap l l.render ++ [opToken op] ++ wrap r r.render := rfl
        have hlenI : ((Tree.bin op l r).render.length : Int) =
            ((wrap l l.render).length : Int) + 1 + ((wrap r r.render).length : Int) := by
          rw [hrender]
          simp only [List.length_append, List.length_cons, List.length_nil]
          push_cast
          ring
        have hwl : 1 ≤ (wrap l l.render).length := by
          have := render_length_pos l
          cases l <;> simp [wrap] at this ⊢
          omega
        have hwr : 1 ≤ (wrap r r.render).length := by
          have := render_length_pos r
          cases r <;> simp [wrap] at this ⊢
          omega
        have hmain := get_main_op_render toks op l r hwf p _ hseg rfl
        have hcp := check_parentheses_render toks op l r hwf p _ hseg rfl
        have hseg2 := hseg
        rw [hrender] at hseg2
        have hsl : SegTok toks p (wrap l l.render) := segTok_left (segTok_left hseg2)
        have hso : tokAt toks (p + ((wrap l l.render).length : Int)) = opToken op :=
          segTok_head (segTok_right (segTok_left hseg2))
        have hsr : SegTok toks (p + ((wrap l l.render).length : Int) + 1)
            (wrap r r.render) := by
          have := segTok_right hseg2
          simp only [List.length_append, List.length_cons, List.length_nil] at this
          have e : p + (((wrap l l.render).length + (0 + 1) : Nat) : Int) =
              p + ((wrap l l.render).length : Int) + 1 := by push_cast; ring
          rw [e] at this
          exact this
        have h1 := eval_operand m toks l hl a ihl1 p f hp hsl (by omega) hfl
        have h2 := eval_operand m toks r hr b ihr1
          (p + ((wrap l l.render).length : Int) + 1) f (by omega) hsr (by omega) hfr
        have e2 : p + ((wrap l l.render).length : Int) + 1 +
            ((wrap r r.render).length : Int) - 1 =
            p + ((Tree.bin op l r).render.length : Int) - 1 := by rw [hlenI]; ring
        rw [e2] at h2
        have e1 : p + ((wrap l l.render).length : Int) - 1 =
            p + ((wrap l l.render).length : Int) - 1 := rfl
        rw [eval_binary_step m toks f p _ (p + ((wrap l l.render).length : Int)) a b hp
          (by omega) (by omega) hcp hmain (by rw [hso]; exact hop) h1 h2, hso]
        have hoty : (opToken op).type = op := rfl
        rw [hoty]
        simp only [binop_eq_applyOp op a b hop hb, hv]

/-- C18: for every tree over decimal literals and the eight binary operators `+`, `-`,
`*`, `/`, `==`, `!=`, `&&`, `||`, each literal a non-empty digit text that fits the
text array of a token and whose value fits a machine word, and with a value in the
reference semantics (so no division has a zero right operand), `eval` over the whole
rendering of the tree, in which every operand that is not a literal stands between
`(` and `)` and the root is bare, returns the value of the tree, whatever follows the
rendering in the array and with any fuel from `Tree.fuel` on. -/
theorem eval_agrees_with_reference (m : Machine) (e : Tree) (post : List Token)
    (v fuel : Nat) (hwf : e.wellFormed) (hv : e.value = some v) (hf : e.fuel ≤ fuel) :
    eval m (e.render ++ post) fuel 0 ((e.render.length : Int) - 1) = some (.ret v) := by
  have h := (eval_render m (e.render ++ post) e hwf v hv).2 0 fuel (le_refl 0)
    (segTok_initial e.render post)
    (by simp only [List.length_append]; push_cast; omega) hf
  have e0 : (0 : Int) + (e.render.length : Int) - 1 = (e.render.length : Int) - 1 := by
    ring
  rw [e0] at h
  exact h

/-- The tree of `(1+2)*(8/4)` is well formed, has the value 6, and `eval` returns 6 on
its rendering. -/
theorem eval_agrees_with_reference_witness :
    tree_example.wellFormed ∧ tree_example.value = some 6 ∧ tree_example.fuel ≤ 5 ∧
    eval machine0 (tree_example.render ++ []) 5 0
      ((tree_example.render.length : Int) - 1) = some (.ret 6) :=
  have hwf : tree_example.wellFormed :=
    ⟨by decide, ⟨by decide, ⟨by decide, by decide, by decide, by decide⟩,
      ⟨by decide, by decide, by decide, by decide⟩⟩,
      ⟨by decide, ⟨by decide, by decide, by decide, by decide⟩,
      ⟨by decide, by decide, by decide, by decide⟩⟩⟩
  have hv : tree_example.value = some 6 := by decide
  have hf : tree_example.fuel ≤ 5 := by decide
  ⟨hwf, hv, hf, eval_agrees_with_reference machine0 tree_example [] 6 5 hwf hv hf⟩

end Nemu
